import Mathlib

/-!
Verification of the incresql core data model against its source.

This file embeds, in Lean, the parts of the incresql engine that the
checked properties talk about: the `Datum` value type with its equality,
total order and static promotion (src/src/data/src/datum.rs), the sortable
binary encoding of datums (src/src/data/src/encoding_datum.rs, with the
primitive codec of encoding_core.rs modelled from the design document),
the executor error type (src/src/executor/src/lib.rs), table-id generation
in the catalog (src/src/catalog/src/lib.rs), the decimal type resolvers of
`+` and `*` (src/src/functions/src/scalar/maths), predicate routing at
inner joins (src/src/planner/src/p2_optimization/predicate_pushdown.rs),
result rendering of byte strings and identifier quoting
(src/src/data/src/datum.rs, src/src/ast/src/expr.rs), and the runtime's
kill_connection (src/src/runtime/src/lib.rs).

Machine integers are modelled as `Nat`/`Int` with explicit bounds; byte
buffers are `List Nat` with every entry `< 256`.
-/

namespace Incresql

/-- `SortOrder` from src/src/data/src/lib.rs. -/
inductive SortOrder
  | Asc
  | Desc
deriving DecidableEq, Repr

/-- `SortOrder::is_asc`. -/
def SortOrder.isAsc : SortOrder → Bool
  | .Asc => true
  | .Desc => false

/-- `DataType` of the data crate. datatype.rs itself is not under src; the
variant list is taken from spec §3 and the uses in datum.rs and the
function resolvers. Decimal carries (precision, scale) as in
`DataType::Decimal(p, s)`. -/
inductive DataType
  | Null
  | Boolean
  | Integer
  | BigInt
  | Decimal (p s : Nat)
  | Date
  | Timestamp
  | Text
  | Json
  | ByteA
  | JsonPath
deriving DecidableEq, Repr

/-- Model of `rust_decimal::Decimal`: a value `mantissa / 10 ^ scale` with
a 96-bit mantissa and scale at most 28 (spec §3: "fixed-point Decimal
(precision ≤ 28, scale ≤ 28)"). -/
structure Dec where
  mantissa : Int
  scale : Nat
deriving DecidableEq, Repr

/-- Well-formedness of a `rust_decimal::Decimal` value: 96-bit mantissa,
scale at most 28. -/
def Dec.wfB (d : Dec) : Bool :=
  decide (d.mantissa.natAbs < 2 ^ 96) && decide (d.scale ≤ 28)

/-- Rust's three-way `Ord::cmp` on integers. -/
def intCmp (a b : Int) : Ordering :=
  if a < b then .lt else if b < a then .gt else .eq

/-- Rust's three-way `Ord::cmp` on unsigned integers. -/
def natCmp (a b : Nat) : Ordering :=
  if a < b then .lt else if b < a then .gt else .eq

/-- Rust's `Ord` on `bool`: `false < true`. -/
def boolCmp : Bool → Bool → Ordering
  | false, true => .lt
  | true, false => .gt
  | _, _ => .eq

/-- `rust_decimal`'s `Ord`: numeric comparison of the represented values
(`a.mantissa / 10^a.scale` versus `b.mantissa / 10^b.scale`, cleared of
denominators). -/
def Dec.cmp (a b : Dec) : Ordering :=
  intCmp (a.mantissa * 10 ^ b.scale) (b.mantissa * 10 ^ a.scale)

/-- `rust_decimal`'s `PartialEq`: numeric equality of represented values. -/
def Dec.beq (a b : Dec) : Bool :=
  a.mantissa * 10 ^ b.scale == b.mantissa * 10 ^ a.scale

/-- Modelled from the spec: `JsonPathExpression` lives in
jsonpath_utils.rs which is not under src. Spec §4.1 says a jsonpath is
"encoded as its original source text", so the model keeps exactly the
original text bytes; equality and comparison are on that text. -/
structure JsonPathExpression where
  original : List Nat
deriving DecidableEq, Repr

/-- Modelled from the spec: `JsonPathExpression::parse` of
jsonpath_utils.rs (not under src) applied to the original text of an
expression; decoding un-parses the stored source text
(encoding_datum.rs line 136). -/
def JsonPathExpression.parse (s : List Nat) : Option JsonPathExpression :=
  some ⟨s⟩

/-- `Datum` from src/src/data/src/datum.rs. The lifetime parameter is
erased; the three physical byte forms (`ByteARef`, `ByteAOwned`,
`ByteAInline`) are kept. `ByteAInline(len, bytes)` carries its 22-byte
backing array as a list together with the length byte. -/
inductive Datum
  | Null
  | Boolean (b : Bool)
  | ByteARef (s : List Nat)
  | ByteAOwned (s : List Nat)
  | ByteAInline (l : Nat) (bytes : List Nat)
  | Integer (i : Int)
  | BigInt (i : Int)
  | Decimal (d : Dec)
  | Jsonpath (e : JsonPathExpression)
  | JsonpathRef (e : JsonPathExpression)
deriving DecidableEq, Repr

namespace Datum

/-- `Datum::is_null`. -/
def isNull : Datum → Bool
  | .Null => true
  | _ => false

/-- `Datum::as_maybe_bytea`: the byte view of the three ByteA forms
(`ByteAInline` exposes the first `len` bytes of its backing array). -/
def asMaybeBytea : Datum → Option (List Nat)
  | .ByteARef s => some s
  | .ByteAInline l b => some (b.take l)
  | .ByteAOwned s => some s
  | _ => none

/-- `Datum::as_maybe_integer`. -/
def asMaybeInteger : Datum → Option Int
  | .Integer i => some i
  | _ => none

/-- `Datum::as_maybe_bigint`. -/
def asMaybeBigint : Datum → Option Int
  | .BigInt i => some i
  | _ => none

/-- `Datum::as_maybe_decimal`. -/
def asMaybeDecimal : Datum → Option Dec
  | .Decimal d => some d
  | _ => none

/-- `Datum::as_maybe_boolean`. -/
def asMaybeBoolean : Datum → Option Bool
  | .Boolean b => some b
  | _ => none

/-- `Datum::as_maybe_jsonpath`. -/
def asMaybeJsonpath : Datum → Option JsonPathExpression
  | .Jsonpath e => some e
  | .JsonpathRef e => some e
  | _ => none

/-- Equality of optional decimals as used by `sql_eq`
(`other.as_maybe_decimal() == Some(*d)`, numeric on the payload). -/
def optDecEq : Option Dec → Option Dec → Bool
  | some a, some b => Dec.beq a b
  | none, none => true
  | _, _ => false

/-- `Datum::sql_eq` from datum.rs lines 108-122: SQL equality with a
null-safe flag; `Null = Null` only when `null_safe` is set, every other
variant compares through its `as_maybe_*` view. -/
def sqlEq (a b : Datum) (nullSafe : Bool) : Bool :=
  match a with
  | .Null => b.isNull && nullSafe
  | .Boolean x => b.asMaybeBoolean == some x
  | .Integer i => b.asMaybeInteger == some i
  | .BigInt i => b.asMaybeBigint == some i
  | .Decimal d => optDecEq b.asMaybeDecimal (some d)
  | .ByteAOwned _ | .ByteAInline _ _ | .ByteARef _ =>
    a.asMaybeBytea == b.asMaybeBytea
  | .Jsonpath _ | .JsonpathRef _ =>
    a.asMaybeJsonpath == b.asMaybeJsonpath

/-- `Datum::into_static` from datum.rs lines 76-98: identity on owned
variants; a borrowed byte slice of length at most 22 becomes
`ByteAInline` with a zero-padded 22-byte array, longer ones become
`ByteAOwned`; a borrowed jsonpath becomes an owned one. -/
def intoStatic : Datum → Datum
  | .Null => .Null
  | .Boolean b => .Boolean b
  | .Integer i => .Integer i
  | .BigInt i => .BigInt i
  | .Decimal d => .Decimal d
  | .ByteAOwned s => .ByteAOwned s
  | .ByteAInline l b => .ByteAInline l b
  | .ByteARef s =>
    if s.length ≤ 22 then
      .ByteAInline s.length (s ++ List.replicate (22 - s.length) 0)
    else
      .ByteAOwned s
  | .Jsonpath e => .Jsonpath e
  | .JsonpathRef e => .Jsonpath e

end Datum

/-- Lexicographic comparison of byte buffers, as Rust's `Ord` on slices
and `Vec<u8>`: element-wise comparison, a strict prefix is smaller. -/
def lexCmp : List Nat → List Nat → Ordering
  | [], [] => .eq
  | [], _ :: _ => .lt
  | _ :: _, [] => .gt
  | a :: as', b :: bs' =>
    match natCmp a b with
    | .eq => lexCmp as' bs'
    | c => c

/-- All entries of a byte buffer fit in a byte. -/
def bytesWfB (l : List Nat) : Bool := l.all (fun b => decide (b < 256))

/-- Well-formedness of a datum: machine-integer variants are in range,
decimals satisfy the `rust_decimal` invariants, inline byte buffers carry
a 22-byte backing array, byte contents fit in bytes. -/
def Datum.wfB : Datum → Bool
  | .Null => true
  | .Boolean _ => true
  | .Integer i => decide (-(2 ^ 31) ≤ i) && decide (i < 2 ^ 31)
  | .BigInt i => decide (-(2 ^ 63) ≤ i) && decide (i < 2 ^ 63)
  | .Decimal d => d.wfB
  | .ByteARef s => bytesWfB s
  | .ByteAOwned s => bytesWfB s
  | .ByteAInline l b => decide (l ≤ 22) && decide (b.length = 22) && bytesWfB b
  | .Jsonpath e => bytesWfB e.original
  | .JsonpathRef e => bytesWfB e.original

/-- `impl Ord for Datum` (`cmp`) from datum.rs lines 132-190. Null is
smallest; each non-null variant compares through the matching
`as_maybe_*` view of the other side and answers `Greater` when the other
side has a different type. `JsonPathExpression`'s own ordering lives in
jsonpath_utils.rs (not under src) and is modelled from the spec as the
ordering of the original text. -/
def Datum.cmp (a b : Datum) : Ordering :=
  match a with
  | .Null => if b.isNull then .eq else .lt
  | .Boolean x =>
    match b.asMaybeBoolean with
    | some o => boolCmp x o
    | none => .gt
  | .Integer i =>
    match b.asMaybeInteger with
    | some o => intCmp i o
    | none => .gt
  | .BigInt i =>
    match b.asMaybeBigint with
    | some o => intCmp i o
    | none => .gt
  | .Decimal d =>
    match b.asMaybeDecimal with
    | some o => Dec.cmp d o
    | none => .gt
  | .ByteAOwned _ | .ByteAInline _ _ | .ByteARef _ =>
    match b.asMaybeBytea with
    | some t => lexCmp ((a.asMaybeBytea).getD []) t
    | none => .gt
  | .Jsonpath _ | .JsonpathRef _ =>
    match b.asMaybeJsonpath with
    | some t => lexCmp (((a.asMaybeJsonpath).getD ⟨[]⟩).original) t.original
    | none => .gt

/-! ## The primitive sortable codec

encoding_core.rs is not under src; the definitions below are modelled
from spec §4.1. Integers are written fixed-width big-endian with the
sign bit flipped, descending variants invert every byte; byte strings
use a 0x00-terminated escape (0x00 becomes 0x00 0xFF, end marker
0x00 0x01, descending is the bytewise inverse); decimals are normalized
to an order-preserving fixed-width integer form. -/

/-- Big-endian bytes of `n`, `w` bytes wide (most significant first). -/
def bytesBE : Nat → Nat → List Nat
  | 0, _ => []
  | w + 1, n => (n / 256 ^ w) :: bytesBE w (n % 256 ^ w)

/-- Value of a big-endian byte buffer. -/
def fromBytesBE : List Nat → Nat
  | [] => 0
  | b :: rest => b * 256 ^ rest.length + fromBytesBE rest

/-- Bytewise inversion used by the descending encodings. -/
def invBytes (l : List Nat) : List Nat := l.map (fun b => 255 - b)

/-- Modelled from the spec: sortable encoding of an `i32`
(`SortableEncoding for i32` of encoding_core.rs, spec §4.1:
"fixed-width big-endian with sign bit flipped; for descending, every
byte is inverted"). -/
def i32SortableBytes (o : SortOrder) (i : Int) : List Nat :=
  let asc := bytesBE 4 (i + 2 ^ 31).toNat
  if o.isAsc then asc else invBytes asc

/-- Modelled from the spec: sortable encoding of an `i64`. -/
def i64SortableBytes (o : SortOrder) (i : Int) : List Nat :=
  let asc := bytesBE 8 (i + 2 ^ 63).toNat
  if o.isAsc then asc else invBytes asc

/-- The offset applied to the scaled decimal value so that the encoded
key is non-negative: half of the 25-byte (200-bit) key space. -/
def decOffset : Int := 2 ^ 199

/-- Modelled from the spec: sortable encoding of a `Decimal`
(spec §4.1: "normalized to (sign, exponent, mantissa) with ordering
preserved across scales"). The value `mantissa / 10^scale` is normalized
to the integer `mantissa * 10^(28 - scale)` — i.e. sign and digits at a
fixed exponent — and written offset-binary, fixed-width big-endian, so
that ordering is preserved across scales. The spec's exponent tie-break
between numerically equal representations is not modelled, matching
`rust_decimal`'s purely numeric comparison. -/
def decSortableBytes (o : SortOrder) (d : Dec) : List Nat :=
  let asc := bytesBE 25 (d.mantissa * 10 ^ (28 - d.scale) + decOffset).toNat
  if o.isAsc then asc else invBytes asc

/-- Strip trailing zero digits: normalizes a decoded decimal
`m / 10^s` to its minimal-scale representation. -/
def Dec.reduce (m : Int) : Nat → Dec
  | 0 => ⟨m, 0⟩
  | s + 1 => if m % 10 = 0 then Dec.reduce (m / 10) s else ⟨m, s + 1⟩

/-- Modelled from the spec: decoding of the decimal payload; reads the
fixed-width offset-binary value and re-normalizes the scale. -/
def decFromSortableBytes (o : SortOrder) (p : List Nat) : Dec :=
  let asc := if o.isAsc then p else invBytes p
  Dec.reduce ((fromBytesBE asc : Int) - decOffset) 28

/-- Modelled from the spec: ascending escape of a byte string
(spec §4.1: "a 0x00-terminated escape of the input where 0x00 becomes
0x00 0xFF and end is 0x00 0x01"). -/
def escAsc : List Nat → List Nat
  | [] => [0, 1]
  | b :: rest => if b = 0 then 0 :: 255 :: escAsc rest else b :: escAsc rest

/-- Modelled from the spec: descending escape, the bytewise inverse of
the ascending escape. -/
def escDesc (l : List Nat) : List Nat := invBytes (escAsc l)

/-- Modelled from the spec: escape of a byte string for either order. -/
def escBytes (o : SortOrder) (l : List Nat) : List Nat :=
  if o.isAsc then escAsc l else escDesc l

/-- Modelled from the spec: decoding of the ascending byte-string
escape; returns the unescaped bytes and the remainder after the
terminator, `none` on a malformed buffer. -/
def readEscAsc : List Nat → Option (List Nat × List Nat)
  | [] => none
  | b :: rest =>
    if b = 0 then
      match rest with
      | [] => none
      | c :: r =>
        if c = 1 then some ([], r)
        else if c = 255 then
          match readEscAsc r with
          | some (s, rem) => some (0 :: s, rem)
          | none => none
        else none
    else
      match readEscAsc rest with
      | some (s, rem) => some (b :: s, rem)
      | none => none

/-- Modelled from the spec: decoding of the descending byte-string
escape (everything bytewise inverted). -/
def readEscDesc : List Nat → Option (List Nat × List Nat)
  | [] => none
  | b :: rest =>
    if b = 255 then
      match rest with
      | [] => none
      | c :: r =>
        if c = 254 then some ([], r)
        else if c = 0 then
          match readEscDesc r with
          | some (s, rem) => some (0 :: s, rem)
          | none => none
        else none
    else
      match readEscDesc rest with
      | some (s, rem) => some ((255 - b) :: s, rem)
      | none => none

/-- Modelled from the spec: byte-string decode for either order. -/
def readEscBytes (o : SortOrder) (l : List Nat) : Option (List Nat × List Nat) :=
  if o.isAsc then readEscAsc l else readEscDesc l

/-- Reads `w` raw bytes, returning them and the remainder. -/
def readBytes (w : Nat) (l : List Nat) : Option (List Nat × List Nat) :=
  if w ≤ l.length then some (l.take w, l.drop w) else none

/-! ## Datum-level sortable encoding (src/src/data/src/encoding_datum.rs) -/

/-- `Datum::as_sortable_bytes` from encoding_datum.rs lines 8-79: one tag
byte (1..=8 ascending, bitwise-not of it descending) followed by the
type-specific payload. The model returns the bytes appended to the
buffer. -/
def Datum.asSortableBytes (d : Datum) (o : SortOrder) : List Nat :=
  match d with
  | .Null => if o.isAsc then [1] else [255 - 1]
  | .Boolean false => if o.isAsc then [2] else [255 - 2]
  | .Boolean true => if o.isAsc then [3] else [255 - 3]
  | .Integer i =>
    (if o.isAsc then [4] else [255 - 4]) ++ i32SortableBytes o i
  | .BigInt i =>
    (if o.isAsc then [5] else [255 - 5]) ++ i64SortableBytes o i
  | .Decimal dec =>
    (if o.isAsc then [6] else [255 - 6]) ++ decSortableBytes o dec
  | .ByteAOwned _ | .ByteARef _ | .ByteAInline _ _ =>
    (if o.isAsc then [7] else [255 - 7]) ++ escBytes o ((d.asMaybeBytea).getD [])
  | .Jsonpath e | .JsonpathRef e =>
    (if o.isAsc then [8] else [255 - 8]) ++ escBytes o e.original

/-- `Datum::from_sortable_bytes` from encoding_datum.rs lines 81-145:
reads the tag byte, infers the sort order from its half of the byte
range (`buffer[0] < 127` means ascending), reads the payload and returns
the decoded datum together with the unconsumed remainder. The `panic!`
on an unexpected tag and the failure modes of the primitive decoders are
modelled as `none`. -/
def Datum.fromSortableBytes (buffer : List Nat) : Option (Datum × List Nat) :=
  match buffer with
  | [] => none
  | t :: rem =>
    let o := if t < 127 then SortOrder.Asc else SortOrder.Desc
    if t = 1 ∨ t = 254 then some (.Null, rem)
    else if t = 2 ∨ t = 253 then some (.Boolean false, rem)
    else if t = 3 ∨ t = 252 then some (.Boolean true, rem)
    else if t = 4 ∨ t = 251 then
      match readBytes 4 rem with
      | some (p, r) =>
        let n := fromBytesBE (if o.isAsc then p else invBytes p)
        some (.Integer ((n : Int) - 2 ^ 31), r)
      | none => none
    else if t = 5 ∨ t = 250 then
      match readBytes 8 rem with
      | some (p, r) =>
        let n := fromBytesBE (if o.isAsc then p else invBytes p)
        some (.BigInt ((n : Int) - 2 ^ 63), r)
      | none => none
    else if t = 6 ∨ t = 249 then
      match readBytes 25 rem with
      | some (p, r) => some (.Decimal (decFromSortableBytes o p), r)
      | none => none
    else if t = 7 ∨ t = 248 then
      match readEscBytes o rem with
      | some (s, r) => some (.ByteAOwned s, r)
      | none => none
    else if t = 8 ∨ t = 247 then
      match readEscBytes o rem with
      | some (s, r) =>
        match JsonPathExpression.parse s with
        | some e => some (.Jsonpath e, r)
        | none => none
      | none => none
    else none

/-! ## Basic lemmas about the comparators and the big-endian codec -/

theorem natCmp_self (a : Nat) : natCmp a a = .eq := by
  simp [natCmp]

theorem natCmp_eq_lt {a b : Nat} (h : a < b) : natCmp a b = .lt := by
  simp [natCmp, h]

theorem natCmp_eq_gt {a b : Nat} (h : b < a) : natCmp a b = .gt := by
  have h' : ¬ a < b := by omega
  simp [natCmp, h, h']

theorem lexCmp_cons_same (t : Nat) (a b : List Nat) :
    lexCmp (t :: a) (t :: b) = lexCmp a b := by
  simp [lexCmp, natCmp_self]

theorem lexCmp_cons_lt {t u : Nat} (h : t < u) (a b : List Nat) :
    lexCmp (t :: a) (u :: b) = .lt := by
  simp [lexCmp, natCmp_eq_lt h]

theorem lexCmp_cons_gt {t u : Nat} (h : u < t) (a b : List Nat) :
    lexCmp (t :: a) (u :: b) = .gt := by
  simp [lexCmp, natCmp_eq_gt h]

theorem bytesBE_length (w n : Nat) : (bytesBE w n).length = w := by
  induction w generalizing n with
  | zero => simp [bytesBE]
  | succ w ih => simp [bytesBE, ih]

theorem fromBytesBE_bytesBE {w n : Nat} (h : n < 256 ^ w) :
    fromBytesBE (bytesBE w n) = n := by
  induction w generalizing n with
  | zero =>
    simp [bytesBE, fromBytesBE]
    omega
  | succ w ih =>
    have hE : 0 < 256 ^ w := Nat.pos_pow_of_pos w (by omega)
    have hmod : n % 256 ^ w < 256 ^ w := Nat.mod_lt _ hE
    simp only [bytesBE, fromBytesBE, bytesBE_length, ih hmod]
    have hdm : 256 ^ w * (n / 256 ^ w) + n % 256 ^ w = n := Nat.div_add_mod ..
    have hcomm : n / 256 ^ w * 256 ^ w = 256 ^ w * (n / 256 ^ w) := Nat.mul_comm ..
    omega

theorem bytesBE_mem_lt {w n : Nat} (h : n < 256 ^ w) :
    ∀ b ∈ bytesBE w n, b < 256 := by
  induction w generalizing n with
  | zero => simp [bytesBE]
  | succ w ih =>
    intro b hb
    have hE : 0 < 256 ^ w := Nat.pos_pow_of_pos w (by omega)
    have hmod : n % 256 ^ w < 256 ^ w := Nat.mod_lt _ hE
    simp only [bytesBE, List.mem_cons] at hb
    rcases hb with hb | hb
    · subst hb
      have : n / 256 ^ w < 256 := by
        apply Nat.div_lt_of_lt_mul
        calc n < 256 ^ (w + 1) := h
        _ = 256 ^ w * 256 := by rw [Nat.pow_succ]
      exact this
    · exact ih hmod b hb

theorem lexCmp_bytesBE {w m n : Nat} (hm : m < 256 ^ w) (hn : n < 256 ^ w) :
    lexCmp (bytesBE w m) (bytesBE w n) = natCmp m n := by
  induction w generalizing m n with
  | zero =>
    have : m = 0 := by omega
    have : n = 0 := by omega
    subst_vars
    simp [bytesBE, lexCmp, natCmp_self]
  | succ w ih =>
    have hE : 0 < 256 ^ w := Nat.pos_pow_of_pos w (by omega)
    have hdm := Nat.div_add_mod m (256 ^ w)
    have hdn := Nat.div_add_mod n (256 ^ w)
    have hmm : m % 256 ^ w < 256 ^ w := Nat.mod_lt _ hE
    have hnm : n % 256 ^ w < 256 ^ w := Nat.mod_lt _ hE
    rcases Nat.lt_trichotomy (m / 256 ^ w) (n / 256 ^ w) with hq | hq | hq
    · have hlt : m < n := by
        calc m = 256 ^ w * (m / 256 ^ w) + m % 256 ^ w := by omega
        _ < 256 ^ w * (m / 256 ^ w) + 256 ^ w := by omega
        _ = 256 ^ w * (m / 256 ^ w + 1) := by ring
        _ ≤ 256 ^ w * (n / 256 ^ w) := Nat.mul_le_mul_left _ (by omega)
        _ ≤ n := by omega
      simp only [bytesBE, lexCmp_cons_lt hq, natCmp_eq_lt hlt]
    · have heads : m / 256 ^ w = n / 256 ^ w := hq
      have hbd : 256 ^ w * (m / 256 ^ w) = 256 ^ w * (n / 256 ^ w) := by
        rw [heads]
      simp only [bytesBE, heads, lexCmp_cons_same, ih hmm hnm]
      unfold natCmp
      split_ifs with h1 h2 h3 h4 h5 h6 <;> first | rfl | (exfalso; omega)
    · have hlt : n < m := by
        calc n = 256 ^ w * (n / 256 ^ w) + n % 256 ^ w := by omega
        _ < 256 ^ w * (n / 256 ^ w) + 256 ^ w := by omega
        _ = 256 ^ w * (n / 256 ^ w + 1) := by ring
        _ ≤ 256 ^ w * (m / 256 ^ w) := Nat.mul_le_mul_left _ (by omega)
        _ ≤ m := by omega
      simp only [bytesBE, lexCmp_cons_gt hq, natCmp_eq_gt hlt]

theorem invBytes_bytesBE {w n : Nat} (h : n < 256 ^ w) :
    invBytes (bytesBE w n) = bytesBE w (256 ^ w - 1 - n) := by
  induction w generalizing n with
  | zero => simp [bytesBE, invBytes]
  | succ w ih =>
    have hE : 0 < 256 ^ w := Nat.pos_pow_of_pos w (by omega)
    have hmm : n % 256 ^ w < 256 ^ w := Nat.mod_lt _ hE
    have hsucc : (256 : Nat) ^ (w + 1) = 256 ^ w * 256 := Nat.pow_succ ..
    have hq : n / 256 ^ w < 256 := by
      apply Nat.div_lt_of_lt_mul
      omega
    have hcomm : n / 256 ^ w * 256 ^ w = 256 ^ w * (n / 256 ^ w) := Nat.mul_comm ..
    have hdm : 256 ^ w * (n / 256 ^ w) + n % 256 ^ w = n := Nat.div_add_mod ..
    have hkey : 256 ^ (w + 1) - 1 - n =
        (255 - n / 256 ^ w) * 256 ^ w + (256 ^ w - 1 - n % 256 ^ w) := by
      have h255 : (255 - n / 256 ^ w) * 256 ^ w
          = 255 * 256 ^ w - (n / 256 ^ w) * 256 ^ w := by
        rw [Nat.sub_mul]
      have hle : (n / 256 ^ w) * 256 ^ w ≤ 255 * 256 ^ w := by
        apply Nat.mul_le_mul_right
        omega
      omega
    have hdiv : (256 ^ (w + 1) - 1 - n) / 256 ^ w = 255 - n / 256 ^ w := by
      rw [hkey, Nat.add_comm, Nat.add_mul_div_right _ _ hE,
        Nat.div_eq_of_lt (by omega)]
      omega
    have hmod : (256 ^ (w + 1) - 1 - n) % 256 ^ w = 256 ^ w - 1 - n % 256 ^ w := by
      rw [hkey, Nat.add_comm, Nat.add_mul_mod_self_right, Nat.mod_eq_of_lt (by omega)]
    simp only [bytesBE, invBytes, List.map_cons, hdiv, hmod]
    rw [List.cons.injEq]
    refine ⟨rfl, ?_⟩
    have := ih hmm
    simpa [invBytes] using this

theorem invBytes_invBytes {l : List Nat} (h : ∀ b ∈ l, b < 256) :
    invBytes (invBytes l) = l := by
  induction l with
  | nil => rfl
  | cons b rest ih =>
    have hb : b < 256 := h b (by simp)
    have hr := ih (fun x hx => h x (by simp [hx]))
    simp only [invBytes, List.map_cons] at hr ⊢
    rw [List.cons.injEq]
    exact ⟨by omega, hr⟩

/-! ## Round-trip and order lemmas for the byte-string escape -/

theorem escAsc_nil : escAsc [] = [0, 1] := rfl

theorem escAsc_cons (b : Nat) (rest : List Nat) :
    escAsc (b :: rest) =
      if b = 0 then 0 :: 255 :: escAsc rest else b :: escAsc rest := rfl

theorem escDesc_nil : escDesc [] = [255, 254] := rfl

theorem escDesc_cons_zero (rest : List Nat) :
    escDesc (0 :: rest) = 255 :: 0 :: escDesc rest := by
  simp [escDesc, escAsc_cons, invBytes]

theorem escDesc_cons_ne {b : Nat} (h : ¬ b = 0) (rest : List Nat) :
    escDesc (b :: rest) = (255 - b) :: escDesc rest := by
  simp [escDesc, escAsc_cons, if_neg h, invBytes]

theorem readEscAsc_cons (b : Nat) (rest : List Nat) :
    readEscAsc (b :: rest) =
      if b = 0 then
        match rest with
        | [] => none
        | c :: r =>
          if c = 1 then some ([], r)
          else if c = 255 then
            match readEscAsc r with
            | some (s, rem) => some (0 :: s, rem)
            | none => none
          else none
      else
        match readEscAsc rest with
        | some (s, rem) => some (b :: s, rem)
        | none => none := by
  rw [readEscAsc.eq_def]

theorem readEscDesc_cons (b : Nat) (rest : List Nat) :
    readEscDesc (b :: rest) =
      if b = 255 then
        match rest with
        | [] => none
        | c :: r =>
          if c = 254 then some ([], r)
          else if c = 0 then
            match readEscDesc r with
            | some (s, rem) => some (0 :: s, rem)
            | none => none
          else none
      else
        match readEscDesc rest with
        | some (s, rem) => some ((255 - b) :: s, rem)
        | none => none := by
  rw [readEscDesc.eq_def]

theorem readEscAsc_escAsc (s r : List Nat) :
    readEscAsc (escAsc s ++ r) = some (s, r) := by
  induction s with
  | nil => rfl
  | cons b rest ih =>
    by_cases hb : b = 0
    · subst hb
      rw [escAsc_cons, if_pos rfl]
      simp only [List.cons_append, readEscAsc_cons, if_pos rfl]
      simp [ih]
    · rw [escAsc_cons, if_neg hb]
      simp only [List.cons_append, readEscAsc_cons, if_neg hb]
      simp [ih]

theorem readEscDesc_escDesc {s : List Nat} (h : ∀ b ∈ s, b < 256) (r : List Nat) :
    readEscDesc (escDesc s ++ r) = some (s, r) := by
  induction s with
  | nil => rfl
  | cons b rest ih =>
    have hb : b < 256 := h b (by simp)
    have ih' := ih (fun x hx => h x (by simp [hx]))
    by_cases hb0 : b = 0
    · subst hb0
      rw [escDesc_cons_zero]
      simp only [List.cons_append, readEscDesc_cons, if_pos rfl]
      simp [ih']
    · have h255 : ¬ (255 - b = 255) := by omega
      have hback : 255 - (255 - b) = b := by omega
      rw [escDesc_cons_ne hb0]
      simp only [List.cons_append, readEscDesc_cons, if_neg h255]
      simp [ih', hback]

theorem lexCmp_escAsc (a b : List Nat) :
    lexCmp (escAsc a) (escAsc b) = lexCmp a b := by
  induction a generalizing b with
  | nil =>
    cases b with
    | nil => rfl
    | cons y ys =>
      by_cases hy : y = 0
      · subst hy
        rw [escAsc_nil, escAsc_cons, if_pos rfl, lexCmp_cons_same,
          lexCmp_cons_lt (by omega : (1 : Nat) < 255)]
        rfl
      · have hy' : 0 < y := by omega
        rw [escAsc_nil, escAsc_cons, if_neg hy, lexCmp_cons_lt hy']
        rfl
  | cons x xs ih =>
    cases b with
    | nil =>
      by_cases hx : x = 0
      · subst hx
        rw [escAsc_nil, escAsc_cons, if_pos rfl, lexCmp_cons_same,
          lexCmp_cons_gt (by omega : (1 : Nat) < 255)]
        rfl
      · have hx' : 0 < x := by omega
        rw [escAsc_nil, escAsc_cons, if_neg hx, lexCmp_cons_gt hx']
        rfl
    | cons y ys =>
      by_cases hx : x = 0 <;> by_cases hy : y = 0
      · subst hx
        subst hy
        rw [escAsc_cons, if_pos rfl, escAsc_cons, if_pos rfl, lexCmp_cons_same,
          lexCmp_cons_same, lexCmp_cons_same, ih]
      · subst hx
        have hy' : 0 < y := by omega
        rw [escAsc_cons, if_pos rfl, escAsc_cons, if_neg hy,
          lexCmp_cons_lt hy', lexCmp_cons_lt hy']
      · subst hy
        have hx' : 0 < x := by omega
        rw [escAsc_cons, if_neg hx, escAsc_cons, if_pos rfl,
          lexCmp_cons_gt hx', lexCmp_cons_gt hx']
      · rcases Nat.lt_trichotomy x y with hxy | hxy | hxy
        · rw [escAsc_cons, if_neg hx, escAsc_cons, if_neg hy,
            lexCmp_cons_lt hxy, lexCmp_cons_lt hxy]
        · subst hxy
          rw [escAsc_cons, if_neg hx, escAsc_cons, if_neg hx,
            lexCmp_cons_same, lexCmp_cons_same, ih]
        · rw [escAsc_cons, if_neg hx, escAsc_cons, if_neg hy,
            lexCmp_cons_gt hxy, lexCmp_cons_gt hxy]

theorem lexCmp_escDesc {a b : List Nat} (ha : ∀ x ∈ a, x < 256)
    (hb : ∀ x ∈ b, x < 256) :
    lexCmp (escDesc a) (escDesc b) = lexCmp b a := by
  induction a generalizing b with
  | nil =>
    cases b with
    | nil => rfl
    | cons y ys =>
      have hy256 : y < 256 := hb y (by simp)
      by_cases hy : y = 0
      · subst hy
        rw [escDesc_nil, escDesc_cons_zero, lexCmp_cons_same,
          lexCmp_cons_gt (by omega : (0 : Nat) < 254)]
        rfl
      · have hlt : 255 - y < 255 := by omega
        rw [escDesc_nil, escDesc_cons_ne hy, lexCmp_cons_gt hlt]
        rfl
  | cons x xs ih =>
    have hx256 : x < 256 := ha x (by simp)
    have ha' : ∀ v ∈ xs, v < 256 := fun v hv => ha v (by simp [hv])
    cases b with
    | nil =>
      by_cases hx : x = 0
      · subst hx
        rw [escDesc_nil, escDesc_cons_zero, lexCmp_cons_same,
          lexCmp_cons_lt (by omega : (0 : Nat) < 254)]
        rfl
      · have hlt : 255 - x < 255 := by omega
        rw [escDesc_nil, escDesc_cons_ne hx, lexCmp_cons_lt hlt]
        rfl
    | cons y ys =>
      have hy256 : y < 256 := hb y (by simp)
      have hb' : ∀ v ∈ ys, v < 256 := fun v hv => hb v (by simp [hv])
      by_cases hx : x = 0 <;> by_cases hy : y = 0
      · subst hx
        subst hy
        rw [escDesc_cons_zero, escDesc_cons_zero, lexCmp_cons_same,
          lexCmp_cons_same, lexCmp_cons_same, ih ha' hb']
      · subst hx
        have hlt : 255 - y < 255 := by omega
        rw [escDesc_cons_zero, escDesc_cons_ne hy, lexCmp_cons_gt hlt,
          lexCmp_cons_gt (by omega : (0 : Nat) < y)]
      · subst hy
        have hlt : 255 - x < 255 := by omega
        rw [escDesc_cons_ne hx, escDesc_cons_zero, lexCmp_cons_lt hlt,
          lexCmp_cons_lt (by omega : (0 : Nat) < x)]
      · rcases Nat.lt_trichotomy x y with hxy | hxy | hxy
        · have hlt : 255 - y < 255 - x := by omega
          rw [escDesc_cons_ne hx, escDesc_cons_ne hy, lexCmp_cons_gt hlt,
            lexCmp_cons_gt hxy]
        · subst hxy
          rw [escDesc_cons_ne hx, escDesc_cons_ne hx, lexCmp_cons_same,
            lexCmp_cons_same, ih ha' hb']
        · have hlt : 255 - x < 255 - y := by omega
          rw [escDesc_cons_ne hx, escDesc_cons_ne hy, lexCmp_cons_lt hlt,
            lexCmp_cons_lt hxy]

/-! ## C3: into_static preserves value -/

/-- C3: For every Datum d, `Datum::into_static(d)` is equal to `d` under
null-safe equality: promotion of a borrowed datum to an owned/static
datum never changes its value. -/
theorem intoStatic_sqlEq (d : Datum) :
    Datum.sqlEq (Datum.intoStatic d) d true = true := by
  cases d with
  | Null => rfl
  | Boolean b => simp [Datum.intoStatic, Datum.sqlEq, Datum.asMaybeBoolean]
  | Integer i => simp [Datum.intoStatic, Datum.sqlEq, Datum.asMaybeInteger]
  | BigInt i => simp [Datum.intoStatic, Datum.sqlEq, Datum.asMaybeBigint]
  | Decimal dec =>
    simp [Datum.intoStatic, Datum.sqlEq, Datum.asMaybeDecimal, Datum.optDecEq,
      Dec.beq]
  | ByteAOwned s =>
    simp [Datum.intoStatic, Datum.sqlEq, Datum.asMaybeBytea]
  | ByteAInline l b =>
    simp [Datum.intoStatic, Datum.sqlEq, Datum.asMaybeBytea]
  | ByteARef s =>
    by_cases hlen : s.length ≤ 22
    · have htake : (s ++ List.replicate (22 - s.length) 0).take s.length = s := by
        rw [List.take_append_of_le_length (Nat.le_refl _), List.take_length]
      simp [Datum.intoStatic, hlen, Datum.sqlEq, Datum.asMaybeBytea, htake]
    · simp [Datum.intoStatic, hlen, Datum.sqlEq, Datum.asMaybeBytea]
  | Jsonpath e =>
    simp [Datum.intoStatic, Datum.sqlEq, Datum.asMaybeJsonpath]
  | JsonpathRef e =>
    simp [Datum.intoStatic, Datum.sqlEq, Datum.asMaybeJsonpath]

/-! ## Helpers for the round-trip theorem -/

theorem readBytes_append {w : Nat} {p : List Nat} (r : List Nat)
    (h : p.length = w) : readBytes w (p ++ r) = some (p, r) := by
  subst h
  have hle : p.length ≤ (p ++ r).length := by
    simp [List.length_append]
  rw [readBytes, if_pos hle, List.take_left, List.drop_left]

/-- Stripping trailing zeros preserves the represented value. -/
theorem dec_reduce_beq (m : Int) (s : Nat) :
    Dec.beq (Dec.reduce m s) ⟨m, s⟩ = true := by
  induction s generalizing m with
  | zero => simp [Dec.reduce, Dec.beq]
  | succ s ih =>
    by_cases hm : m % 10 = 0
    · have hdvd : (10 : Int) ∣ m := Int.dvd_of_emod_eq_zero hm
      have hmul : m / 10 * 10 = m := Int.ediv_mul_cancel hdvd
      have hred : Dec.reduce m (s + 1) = Dec.reduce (m / 10) s := by
        rw [Dec.reduce, if_pos hm]
      have := ih (m / 10)
      rw [hred]
      simp only [Dec.beq, beq_iff_eq] at this ⊢
      calc (Dec.reduce (m / 10) s).mantissa * 10 ^ (s + 1)
          = (Dec.reduce (m / 10) s).mantissa * 10 ^ s * 10 := by ring
      _ = m / 10 * 10 ^ (Dec.reduce (m / 10) s).scale * 10 := by rw [this]
      _ = (m / 10 * 10) * 10 ^ (Dec.reduce (m / 10) s).scale := by ring
      _ = m * 10 ^ (Dec.reduce (m / 10) s).scale := by rw [hmul]
    · rw [Dec.reduce, if_neg hm]
      simp [Dec.beq]

/-! ## Reduction lemmas for the datum decoder, one per tag byte -/

theorem fromSortable_null_asc (rem : List Nat) :
    Datum.fromSortableBytes (1 :: rem) = some (.Null, rem) := by
  simp [Datum.fromSortableBytes]

theorem fromSortable_null_desc (rem : List Nat) :
    Datum.fromSortableBytes (254 :: rem) = some (.Null, rem) := by
  simp [Datum.fromSortableBytes]

theorem fromSortable_false_asc (rem : List Nat) :
    Datum.fromSortableBytes (2 :: rem) = some (.Boolean false, rem) := by
  simp [Datum.fromSortableBytes]

theorem fromSortable_false_desc (rem : List Nat) :
    Datum.fromSortableBytes (253 :: rem) = some (.Boolean false, rem) := by
  simp [Datum.fromSortableBytes]

theorem fromSortable_true_asc (rem : List Nat) :
    Datum.fromSortableBytes (3 :: rem) = some (.Boolean true, rem) := by
  simp [Datum.fromSortableBytes]

theorem fromSortable_true_desc (rem : List Nat) :
    Datum.fromSortableBytes (252 :: rem) = some (.Boolean true, rem) := by
  simp [Datum.fromSortableBytes]

theorem fromSortable_int_asc (rem : List Nat) :
    Datum.fromSortableBytes (4 :: rem) =
      match readBytes 4 rem with
      | some (p, r) => some (.Integer ((fromBytesBE p : Int) - 2 ^ 31), r)
      | none => none := by
  simp [Datum.fromSortableBytes, SortOrder.isAsc]

theorem fromSortable_int_desc (rem : List Nat) :
    Datum.fromSortableBytes (251 :: rem) =
      match readBytes 4 rem with
      | some (p, r) => some (.Integer ((fromBytesBE (invBytes p) : Int) - 2 ^ 31), r)
      | none => none := by
  simp [Datum.fromSortableBytes, SortOrder.isAsc]

theorem fromSortable_bigint_asc (rem : List Nat) :
    Datum.fromSortableBytes (5 :: rem) =
      match readBytes 8 rem with
      | some (p, r) => some (.BigInt ((fromBytesBE p : Int) - 2 ^ 63), r)
      | none => none := by
  simp [Datum.fromSortableBytes, SortOrder.isAsc]

theorem fromSortable_bigint_desc (rem : List Nat) :
    Datum.fromSortableBytes (250 :: rem) =
      match readBytes 8 rem with
      | some (p, r) => some (.BigInt ((fromBytesBE (invBytes p) : Int) - 2 ^ 63), r)
      | none => none := by
  simp [Datum.fromSortableBytes, SortOrder.isAsc]

theorem fromSortable_dec_asc (rem : List Nat) :
    Datum.fromSortableBytes (6 :: rem) =
      match readBytes 25 rem with
      | some (p, r) => some (.Decimal (decFromSortableBytes .Asc p), r)
      | none => none := by
  simp [Datum.fromSortableBytes]

theorem fromSortable_dec_desc (rem : List Nat) :
    Datum.fromSortableBytes (249 :: rem) =
      match readBytes 25 rem with
      | some (p, r) => some (.Decimal (decFromSortableBytes .Desc p), r)
      | none => none := by
  simp [Datum.fromSortableBytes]

theorem fromSortable_bytes_asc (rem : List Nat) :
    Datum.fromSortableBytes (7 :: rem) =
      match readEscAsc rem with
      | some (p, r) => some (.ByteAOwned p, r)
      | none => none := by
  simp [Datum.fromSortableBytes, readEscBytes, SortOrder.isAsc]

theorem fromSortable_bytes_desc (rem : List Nat) :
    Datum.fromSortableBytes (248 :: rem) =
      match readEscDesc rem with
      | some (p, r) => some (.ByteAOwned p, r)
      | none => none := by
  simp [Datum.fromSortableBytes, readEscBytes, SortOrder.isAsc]

theorem fromSortable_jsonpath_asc (rem : List Nat) :
    Datum.fromSortableBytes (8 :: rem) =
      match readEscAsc rem with
      | some (p, r) => some (.Jsonpath ⟨p⟩, r)
      | none => none := by
  simp [Datum.fromSortableBytes, readEscBytes, SortOrder.isAsc,
    JsonPathExpression.parse]

theorem fromSortable_jsonpath_desc (rem : List Nat) :
    Datum.fromSortableBytes (247 :: rem) =
      match readEscDesc rem with
      | some (p, r) => some (.Jsonpath ⟨p⟩, r)
      | none => none := by
  simp [Datum.fromSortableBytes, readEscBytes, SortOrder.isAsc,
    JsonPathExpression.parse]

/-! ## C1: round-trip of the sortable encoding -/

theorem invBytes_length (l : List Nat) : (invBytes l).length = l.length := by
  simp [invBytes]

theorem ite_isAsc_asc {α : Sort _} (a b : α) :
    (if SortOrder.Asc.isAsc = true then a else b) = a := rfl

theorem ite_isAsc_desc {α : Sort _} (a b : α) :
    (if SortOrder.Desc.isAsc = true then a else b) = b := rfl

theorem decFromSortableBytes_asc (p : List Nat) :
    decFromSortableBytes .Asc p
      = Dec.reduce ((fromBytesBE p : Int) - decOffset) 28 := rfl

theorem decFromSortableBytes_desc (p : List Nat) :
    decFromSortableBytes .Desc p
      = Dec.reduce ((fromBytesBE (invBytes p) : Int) - decOffset) 28 := rfl

theorem fromSortable_int_asc_app (p r : List Nat) (hp : p.length = 4) :
    Datum.fromSortableBytes (4 :: (p ++ r)) =
      some (.Integer ((fromBytesBE p : Int) - 2 ^ 31), r) := by
  rw [fromSortable_int_asc, readBytes_append r hp]

theorem fromSortable_int_desc_app (p r : List Nat) (hp : p.length = 4) :
    Datum.fromSortableBytes (251 :: (p ++ r)) =
      some (.Integer ((fromBytesBE (invBytes p) : Int) - 2 ^ 31), r) := by
  rw [fromSortable_int_desc, readBytes_append r hp]

theorem fromSortable_bigint_asc_app (p r : List Nat) (hp : p.length = 8) :
    Datum.fromSortableBytes (5 :: (p ++ r)) =
      some (.BigInt ((fromBytesBE p : Int) - 2 ^ 63), r) := by
  rw [fromSortable_bigint_asc, readBytes_append r hp]

theorem fromSortable_bigint_desc_app (p r : List Nat) (hp : p.length = 8) :
    Datum.fromSortableBytes (250 :: (p ++ r)) =
      some (.BigInt ((fromBytesBE (invBytes p) : Int) - 2 ^ 63), r) := by
  rw [fromSortable_bigint_desc, readBytes_append r hp]

theorem fromSortable_dec_asc_app (p r : List Nat) (hp : p.length = 25) :
    Datum.fromSortableBytes (6 :: (p ++ r)) =
      some (.Decimal (decFromSortableBytes .Asc p), r) := by
  rw [fromSortable_dec_asc, readBytes_append r hp]

theorem fromSortable_dec_desc_app (p r : List Nat) (hp : p.length = 25) :
    Datum.fromSortableBytes (249 :: (p ++ r)) =
      some (.Decimal (decFromSortableBytes .Desc p), r) := by
  rw [fromSortable_dec_desc, readBytes_append r hp]

theorem fromSortable_bytes_asc_app (p r : List Nat) :
    Datum.fromSortableBytes (7 :: (escAsc p ++ r)) =
      some (.ByteAOwned p, r) := by
  rw [fromSortable_bytes_asc, readEscAsc_escAsc]

theorem fromSortable_bytes_desc_app {p : List Nat} (h : ∀ b ∈ p, b < 256)
    (r : List Nat) :
    Datum.fromSortableBytes (248 :: (escDesc p ++ r)) =
      some (.ByteAOwned p, r) := by
  rw [fromSortable_bytes_desc, readEscDesc_escDesc h]

theorem fromSortable_jsonpath_asc_app (p r : List Nat) :
    Datum.fromSortableBytes (8 :: (escAsc p ++ r)) =
      some (.Jsonpath ⟨p⟩, r) := by
  rw [fromSortable_jsonpath_asc, readEscAsc_escAsc]

theorem fromSortable_jsonpath_desc_app {p : List Nat} (h : ∀ b ∈ p, b < 256)
    (r : List Nat) :
    Datum.fromSortableBytes (247 :: (escDesc p ++ r)) =
      some (.Jsonpath ⟨p⟩, r) := by
  rw [fromSortable_jsonpath_desc, readEscDesc_escDesc h]

theorem dec_scaled_bound {dec : Dec} (h : dec.wfB = true) :
    (dec.mantissa * 10 ^ (28 - dec.scale)).natAbs < 2 ^ 190 := by
  simp only [Dec.wfB, Bool.and_eq_true, decide_eq_true_eq] at h
  obtain ⟨hm, hs⟩ := h
  rw [Int.natAbs_mul]
  have h10 : ((10 : Int) ^ (28 - dec.scale)).natAbs = 10 ^ (28 - dec.scale) := by
    rw [Int.natAbs_pow]
    norm_num
  rw [h10]
  have hle : (10 : Nat) ^ (28 - dec.scale) ≤ 10 ^ 28 :=
    Nat.pow_le_pow_right (by omega) (by omega)
  calc dec.mantissa.natAbs * 10 ^ (28 - dec.scale)
      ≤ dec.mantissa.natAbs * 10 ^ 28 := Nat.mul_le_mul_left _ hle
    _ < 2 ^ 96 * 10 ^ 28 := by
        have hp : (0 : Nat) < 10 ^ 28 := by positivity
        exact (Nat.mul_lt_mul_right hp).mpr hm
    _ < 2 ^ 190 := by norm_num

/-- The value decoded from the fixed-exponent normal form is numerically
equal to the original decimal. -/
theorem dec_decode_beq (dec : Dec) (hs : dec.scale ≤ 28) :
    Dec.beq dec (Dec.reduce (dec.mantissa * 10 ^ (28 - dec.scale)) 28) = true := by
  have hred := dec_reduce_beq (dec.mantissa * 10 ^ (28 - dec.scale)) 28
  simp only [Dec.beq, beq_iff_eq] at hred ⊢
  have hpow : (10 : Int) ^ (28 - dec.scale) * 10 ^ dec.scale = 10 ^ 28 := by
    rw [← pow_add]
    congr 1
    omega
  have key : dec.mantissa *
        10 ^ (Dec.reduce (dec.mantissa * 10 ^ (28 - dec.scale)) 28).scale * 10 ^ 28
      = (Dec.reduce (dec.mantissa * 10 ^ (28 - dec.scale)) 28).mantissa *
        10 ^ dec.scale * 10 ^ 28 := by
    calc dec.mantissa *
          10 ^ (Dec.reduce (dec.mantissa * 10 ^ (28 - dec.scale)) 28).scale * 10 ^ 28
        = dec.mantissa * (10 ^ (28 - dec.scale) * 10 ^ dec.scale) *
            10 ^ (Dec.reduce (dec.mantissa * 10 ^ (28 - dec.scale)) 28).scale := by
          rw [hpow]
          ring
      _ = (dec.mantissa * 10 ^ (28 - dec.scale) *
            10 ^ (Dec.reduce (dec.mantissa * 10 ^ (28 - dec.scale)) 28).scale) *
            10 ^ dec.scale := by ring
      _ = ((Dec.reduce (dec.mantissa * 10 ^ (28 - dec.scale)) 28).mantissa *
            10 ^ 28) * 10 ^ dec.scale := by rw [hred]
      _ = (Dec.reduce (dec.mantissa * 10 ^ (28 - dec.scale)) 28).mantissa *
            10 ^ dec.scale * 10 ^ 28 := by ring
  exact mul_right_cancel₀ (by positivity) key

/-- C1: decoding the sortable encoding of any well-formed datum, for
either sort order, consumes exactly the produced bytes and yields a
datum equal to the original under null-safe equality. -/
theorem sortable_roundtrip (d : Datum) (o : SortOrder) (rest : List Nat)
    (h : d.wfB = true) :
    ∃ d', Datum.fromSortableBytes (d.asSortableBytes o ++ rest) = some (d', rest)
      ∧ Datum.sqlEq d' d true = true := by
  cases d with
  | Null =>
    refine ⟨.Null, ?_, rfl⟩
    cases o
    · simp [Datum.asSortableBytes, SortOrder.isAsc, fromSortable_null_asc]
    · simp [Datum.asSortableBytes, SortOrder.isAsc, fromSortable_null_desc]
  | Boolean b =>
    refine ⟨.Boolean b, ?_, by simp [Datum.sqlEq, Datum.asMaybeBoolean]⟩
    cases b <;> cases o
    · simp [Datum.asSortableBytes, SortOrder.isAsc, fromSortable_false_asc]
    · simp [Datum.asSortableBytes, SortOrder.isAsc, fromSortable_false_desc]
    · simp [Datum.asSortableBytes, SortOrder.isAsc, fromSortable_true_asc]
    · simp [Datum.asSortableBytes, SortOrder.isAsc, fromSortable_true_desc]
  | Integer i =>
    simp only [Datum.wfB, Bool.and_eq_true, decide_eq_true_eq] at h
    refine ⟨.Integer i, ?_, by simp [Datum.sqlEq, Datum.asMaybeInteger]⟩
    have hn : (i + 2 ^ 31).toNat < 256 ^ 4 := by
      norm_num
      omega
    have hi : ((i + 2 ^ 31).toNat : Int) - 2 ^ 31 = i := by omega
    cases o
    · simp only [Datum.asSortableBytes, i32SortableBytes, ite_isAsc_asc,
        List.cons_append, List.nil_append]
      rw [fromSortable_int_asc_app _ _ (bytesBE_length ..),
        fromBytesBE_bytesBE hn, hi]
    · simp only [Datum.asSortableBytes, i32SortableBytes, ite_isAsc_desc,
        List.cons_append, List.nil_append]
      rw [fromSortable_int_desc_app _ _ (by rw [invBytes_length, bytesBE_length]),
        invBytes_invBytes (bytesBE_mem_lt hn), fromBytesBE_bytesBE hn, hi]
  | BigInt i =>
    simp only [Datum.wfB, Bool.and_eq_true, decide_eq_true_eq] at h
    refine ⟨.BigInt i, ?_, by simp [Datum.sqlEq, Datum.asMaybeBigint]⟩
    have hn : (i + 2 ^ 63).toNat < 256 ^ 8 := by
      norm_num
      omega
    have hi : ((i + 2 ^ 63).toNat : Int) - 2 ^ 63 = i := by omega
    cases o
    · simp only [Datum.asSortableBytes, i64SortableBytes, ite_isAsc_asc,
        List.cons_append, List.nil_append]
      rw [fromSortable_bigint_asc_app _ _ (bytesBE_length ..),
        fromBytesBE_bytesBE hn, hi]
    · simp only [Datum.asSortableBytes, i64SortableBytes, ite_isAsc_desc,
        List.cons_append, List.nil_append]
      rw [fromSortable_bigint_desc_app _ _ (by rw [invBytes_length, bytesBE_length]),
        invBytes_invBytes (bytesBE_mem_lt hn), fromBytesBE_bytesBE hn, hi]
  | Decimal dec =>
    have hwf : dec.wfB = true := by
      simpa [Datum.wfB] using h
    have hs : dec.scale ≤ 28 := by
      simp only [Dec.wfB, Bool.and_eq_true, decide_eq_true_eq] at hwf
      exact hwf.2
    have hNabs := dec_scaled_bound hwf
    have h0 : 0 ≤ dec.mantissa * 10 ^ (28 - dec.scale) + decOffset := by
      unfold decOffset
      omega
    have hK : (dec.mantissa * 10 ^ (28 - dec.scale) + decOffset).toNat < 256 ^ 25 := by
      unfold decOffset at *
      have h256 : (256 : Nat) ^ 25 = 2 ^ 200 := by norm_num
      rw [h256]
      omega
    have hback : ((dec.mantissa * 10 ^ (28 - dec.scale) + decOffset).toNat : Int)
        - decOffset = dec.mantissa * 10 ^ (28 - dec.scale) := by
      omega
    have hdec : decFromSortableBytes .Asc
        (bytesBE 25 (dec.mantissa * 10 ^ (28 - dec.scale) + decOffset).toNat)
        = Dec.reduce (dec.mantissa * 10 ^ (28 - dec.scale)) 28 := by
      rw [decFromSortableBytes_asc, fromBytesBE_bytesBE hK, hback]
    have hdesc : decFromSortableBytes .Desc
        (invBytes (bytesBE 25 (dec.mantissa * 10 ^ (28 - dec.scale) + decOffset).toNat))
        = Dec.reduce (dec.mantissa * 10 ^ (28 - dec.scale)) 28 := by
      rw [decFromSortableBytes_desc, invBytes_invBytes (bytesBE_mem_lt hK),
        fromBytesBE_bytesBE hK, hback]
    refine ⟨.Decimal (Dec.reduce (dec.mantissa * 10 ^ (28 - dec.scale)) 28), ?_,
      by simp [Datum.sqlEq, Datum.asMaybeDecimal, Datum.optDecEq,
        dec_decode_beq dec hs]⟩
    cases o
    · simp only [Datum.asSortableBytes, decSortableBytes, ite_isAsc_asc,
        List.cons_append, List.nil_append]
      rw [fromSortable_dec_asc_app _ _ (bytesBE_length ..), hdec]
    · simp only [Datum.asSortableBytes, decSortableBytes, ite_isAsc_desc,
        List.cons_append, List.nil_append]
      rw [fromSortable_dec_desc_app _ _ (by rw [invBytes_length, bytesBE_length]),
        hdesc]
  | ByteARef s =>
    simp only [Datum.wfB, bytesWfB, List.all_eq_true, decide_eq_true_eq] at h
    refine ⟨.ByteAOwned s, ?_, by simp [Datum.sqlEq, Datum.asMaybeBytea]⟩
    cases o
    · simp only [Datum.asSortableBytes, Datum.asMaybeBytea, escBytes,
        ite_isAsc_asc, List.cons_append, List.nil_append, Option.getD_some]
      rw [fromSortable_bytes_asc_app]
    · simp only [Datum.asSortableBytes, Datum.asMaybeBytea, escBytes,
        ite_isAsc_desc, List.cons_append, List.nil_append, Option.getD_some]
      rw [fromSortable_bytes_desc_app h]
  | ByteAOwned s =>
    simp only [Datum.wfB, bytesWfB, List.all_eq_true, decide_eq_true_eq] at h
    refine ⟨.ByteAOwned s, ?_, by simp [Datum.sqlEq, Datum.asMaybeBytea]⟩
    cases o
    · simp only [Datum.asSortableBytes, Datum.asMaybeBytea, escBytes,
        ite_isAsc_asc, List.cons_append, List.nil_append, Option.getD_some]
      rw [fromSortable_bytes_asc_app]
    · simp only [Datum.asSortableBytes, Datum.asMaybeBytea, escBytes,
        ite_isAsc_desc, List.cons_append, List.nil_append, Option.getD_some]
      rw [fromSortable_bytes_desc_app h]
  | ByteAInline l b =>
    simp only [Datum.wfB, bytesWfB, Bool.and_eq_true, List.all_eq_true,
      decide_eq_true_eq] at h
    have htk : ∀ x ∈ b.take l, x < 256 := fun x hx =>
      h.2 x (List.take_subset _ _ hx)
    refine ⟨.ByteAOwned (b.take l), ?_,
      by simp [Datum.sqlEq, Datum.asMaybeBytea]⟩
    cases o
    · simp only [Datum.asSortableBytes, Datum.asMaybeBytea, escBytes,
        ite_isAsc_asc, List.cons_append, List.nil_append, Option.getD_some]
      rw [fromSortable_bytes_asc_app]
    · simp only [Datum.asSortableBytes, Datum.asMaybeBytea, escBytes,
        ite_isAsc_desc, List.cons_append, List.nil_append, Option.getD_some]
      rw [fromSortable_bytes_desc_app htk]
  | Jsonpath e =>
    simp only [Datum.wfB, bytesWfB, List.all_eq_true, decide_eq_true_eq] at h
    refine ⟨.Jsonpath ⟨e.original⟩, ?_,
      by simp [Datum.sqlEq, Datum.asMaybeJsonpath]⟩
    cases o
    · simp only [Datum.asSortableBytes, escBytes, ite_isAsc_asc,
        List.cons_append, List.nil_append]
      rw [fromSortable_jsonpath_asc_app]
    · simp only [Datum.asSortableBytes, escBytes, ite_isAsc_desc,
        List.cons_append, List.nil_append]
      rw [fromSortable_jsonpath_desc_app h]
  | JsonpathRef e =>
    simp only [Datum.wfB, bytesWfB, List.all_eq_true, decide_eq_true_eq] at h
    refine ⟨.Jsonpath ⟨e.original⟩, ?_,
      by simp [Datum.sqlEq, Datum.asMaybeJsonpath]⟩
    cases o
    · simp only [Datum.asSortableBytes, escBytes, ite_isAsc_asc,
        List.cons_append, List.nil_append]
      rw [fromSortable_jsonpath_asc_app]
    · simp only [Datum.asSortableBytes, escBytes, ite_isAsc_desc,
        List.cons_append, List.nil_append]
      rw [fromSortable_jsonpath_desc_app h]

/-! ## C2: order preservation of the sortable encoding -/

/-- The type tag family of a datum (ascending tag byte; both Boolean tags
share a family, as do the three ByteA forms and the two jsonpath forms). -/
def Datum.family : Datum → Nat
  | .Null => 1
  | .Boolean _ => 2
  | .Integer _ => 4
  | .BigInt _ => 5
  | .Decimal _ => 6
  | .ByteARef _ | .ByteAOwned _ | .ByteAInline _ _ => 7
  | .Jsonpath _ | .JsonpathRef _ => 8

/-- Total-order comparison of two datums under a sort order: the datum
order itself for ascending, reversed for descending. -/
def cmpOrd (o : SortOrder) (a b : Datum) : Ordering :=
  if o.isAsc then Datum.cmp a b else Datum.cmp b a

theorem natCmp_toNat_shift {K i j : Int} (hi : 0 ≤ i + K) (hj : 0 ≤ j + K) :
    natCmp (i + K).toNat (j + K).toNat = intCmp i j := by
  unfold natCmp intCmp
  split_ifs <;> first | rfl | (exfalso; omega)

theorem natCmp_inv {C m n : Nat} (hm : m < C) (hn : n < C) :
    natCmp (C - 1 - m) (C - 1 - n) = natCmp n m := by
  unfold natCmp
  split_ifs <;> first | rfl | (exfalso; omega)

theorem i32Payload_asc {i j : Int} (hi0 : -(2 ^ 31) ≤ i) (hi1 : i < 2 ^ 31)
    (hj0 : -(2 ^ 31) ≤ j) (hj1 : j < 2 ^ 31) :
    lexCmp (i32SortableBytes .Asc i) (i32SortableBytes .Asc j) = intCmp i j := by
  have hbi : (i + 2 ^ 31).toNat < 256 ^ 4 := by
    norm_num
    omega
  have hbj : (j + 2 ^ 31).toNat < 256 ^ 4 := by
    norm_num
    omega
  unfold i32SortableBytes
  rw [ite_isAsc_asc, ite_isAsc_asc, lexCmp_bytesBE hbi hbj,
    natCmp_toNat_shift (by omega) (by omega)]

theorem i32Payload_desc {i j : Int} (hi0 : -(2 ^ 31) ≤ i) (hi1 : i < 2 ^ 31)
    (hj0 : -(2 ^ 31) ≤ j) (hj1 : j < 2 ^ 31) :
    lexCmp (i32SortableBytes .Desc i) (i32SortableBytes .Desc j) = intCmp j i := by
  have hbi : (i + 2 ^ 31).toNat < 256 ^ 4 := by
    norm_num
    omega
  have hbj : (j + 2 ^ 31).toNat < 256 ^ 4 := by
    norm_num
    omega
  unfold i32SortableBytes
  rw [ite_isAsc_desc, ite_isAsc_desc, invBytes_bytesBE hbi, invBytes_bytesBE hbj,
    lexCmp_bytesBE (by omega) (by omega), natCmp_inv hbi hbj,
    natCmp_toNat_shift (by omega) (by omega)]

theorem i64Payload_asc {i j : Int} (hi0 : -(2 ^ 63) ≤ i) (hi1 : i < 2 ^ 63)
    (hj0 : -(2 ^ 63) ≤ j) (hj1 : j < 2 ^ 63) :
    lexCmp (i64SortableBytes .Asc i) (i64SortableBytes .Asc j) = intCmp i j := by
  have hbi : (i + 2 ^ 63).toNat < 256 ^ 8 := by
    norm_num
    omega
  have hbj : (j + 2 ^ 63).toNat < 256 ^ 8 := by
    norm_num
    omega
  unfold i64SortableBytes
  rw [ite_isAsc_asc, ite_isAsc_asc, lexCmp_bytesBE hbi hbj,
    natCmp_toNat_shift (by omega) (by omega)]

theorem i64Payload_desc {i j : Int} (hi0 : -(2 ^ 63) ≤ i) (hi1 : i < 2 ^ 63)
    (hj0 : -(2 ^ 63) ≤ j) (hj1 : j < 2 ^ 63) :
    lexCmp (i64SortableBytes .Desc i) (i64SortableBytes .Desc j) = intCmp j i := by
  have hbi : (i + 2 ^ 63).toNat < 256 ^ 8 := by
    norm_num
    omega
  have hbj : (j + 2 ^ 63).toNat < 256 ^ 8 := by
    norm_num
    omega
  unfold i64SortableBytes
  rw [ite_isAsc_desc, ite_isAsc_desc, invBytes_bytesBE hbi, invBytes_bytesBE hbj,
    lexCmp_bytesBE (by omega) (by omega), natCmp_inv hbi hbj,
    natCmp_toNat_shift (by omega) (by omega)]

/-- The fixed-exponent normal forms compare exactly as the decimals do. -/
theorem dec_scaled_cmp (a b : Dec) (ha : a.scale ≤ 28) (hb : b.scale ≤ 28) :
    intCmp (a.mantissa * 10 ^ (28 - a.scale)) (b.mantissa * 10 ^ (28 - b.scale))
      = Dec.cmp a b := by
  have hP : (0 : Int) < 10 ^ (a.scale + b.scale) := by positivity
  have hQ : (0 : Int) < 10 ^ 28 := by positivity
  have e1 : a.mantissa * 10 ^ (28 - a.scale) * 10 ^ (a.scale + b.scale)
      = a.mantissa * 10 ^ b.scale * 10 ^ 28 := by
    rw [mul_assoc, ← pow_add, mul_assoc, ← pow_add]
    have : 28 - a.scale + (a.scale + b.scale) = b.scale + 28 := by omega
    rw [this]
  have e2 : b.mantissa * 10 ^ (28 - b.scale) * 10 ^ (a.scale + b.scale)
      = b.mantissa * 10 ^ a.scale * 10 ^ 28 := by
    rw [mul_assoc, ← pow_add, mul_assoc, ← pow_add]
    have : 28 - b.scale + (a.scale + b.scale) = a.scale + 28 := by omega
    rw [this]
  have hiff : a.mantissa * 10 ^ (28 - a.scale) < b.mantissa * 10 ^ (28 - b.scale)
      ↔ a.mantissa * 10 ^ b.scale < b.mantissa * 10 ^ a.scale := by
    rw [← mul_lt_mul_right hP, e1, e2, mul_lt_mul_right hQ]
  have hiff2 : b.mantissa * 10 ^ (28 - b.scale) < a.mantissa * 10 ^ (28 - a.scale)
      ↔ b.mantissa * 10 ^ a.scale < a.mantissa * 10 ^ b.scale := by
    rw [← mul_lt_mul_right hP, e1, e2, mul_lt_mul_right hQ]
  unfold intCmp Dec.cmp
  exact if_congr hiff rfl (if_congr hiff2 rfl rfl)

theorem decPayload_asc {a b : Dec} (ha : a.wfB = true) (hb : b.wfB = true) :
    lexCmp (decSortableBytes .Asc a) (decSortableBytes .Asc b) = Dec.cmp a b := by
  have has : a.scale ≤ 28 := by
    simp only [Dec.wfB, Bool.and_eq_true, decide_eq_true_eq] at ha
    exact ha.2
  have hbs : b.scale ≤ 28 := by
    simp only [Dec.wfB, Bool.and_eq_true, decide_eq_true_eq] at hb
    exact hb.2
  have hNa := dec_scaled_bound ha
  have hNb := dec_scaled_bound hb
  have hKa : (a.mantissa * 10 ^ (28 - a.scale) + decOffset).toNat < 256 ^ 25 := by
    unfold decOffset at *
    have h256 : (256 : Nat) ^ 25 = 2 ^ 200 := by norm_num
    rw [h256]
    omega
  have hKb : (b.mantissa * 10 ^ (28 - b.scale) + decOffset).toNat < 256 ^ 25 := by
    unfold decOffset at *
    have h256 : (256 : Nat) ^ 25 = 2 ^ 200 := by norm_num
    rw [h256]
    omega
  have h0a : 0 ≤ a.mantissa * 10 ^ (28 - a.scale) + decOffset := by
    unfold decOffset at *
    omega
  have h0b : 0 ≤ b.mantissa * 10 ^ (28 - b.scale) + decOffset := by
    unfold decOffset at *
    omega
  unfold decSortableBytes
  rw [ite_isAsc_asc, ite_isAsc_asc, lexCmp_bytesBE hKa hKb,
    natCmp_toNat_shift h0a h0b, dec_scaled_cmp a b has hbs]

theorem decPayload_desc {a b : Dec} (ha : a.wfB = true) (hb : b.wfB = true) :
    lexCmp (decSortableBytes .Desc a) (decSortableBytes .Desc b) = Dec.cmp b a := by
  have has : a.scale ≤ 28 := by
    simp only [Dec.wfB, Bool.and_eq_true, decide_eq_true_eq] at ha
    exact ha.2
  have hbs : b.scale ≤ 28 := by
    simp only [Dec.wfB, Bool.and_eq_true, decide_eq_true_eq] at hb
    exact hb.2
  have hNa := dec_scaled_bound ha
  have hNb := dec_scaled_bound hb
  have hKa : (a.mantissa * 10 ^ (28 - a.scale) + decOffset).toNat < 256 ^ 25 := by
    unfold decOffset at *
    have h256 : (256 : Nat) ^ 25 = 2 ^ 200 := by norm_num
    rw [h256]
    omega
  have hKb : (b.mantissa * 10 ^ (28 - b.scale) + decOffset).toNat < 256 ^ 25 := by
    unfold decOffset at *
    have h256 : (256 : Nat) ^ 25 = 2 ^ 200 := by norm_num
    rw [h256]
    omega
  have h0a : 0 ≤ a.mantissa * 10 ^ (28 - a.scale) + decOffset := by
    unfold decOffset at *
    omega
  have h0b : 0 ≤ b.mantissa * 10 ^ (28 - b.scale) + decOffset := by
    unfold decOffset at *
    omega
  unfold decSortableBytes
  rw [ite_isAsc_desc, ite_isAsc_desc, invBytes_bytesBE hKa, invBytes_bytesBE hKb,
    lexCmp_bytesBE (by omega) (by omega), natCmp_inv hKa hKb,
    natCmp_toNat_shift h0b h0a, dec_scaled_cmp b a hbs has]

theorem escBytes_asc (l : List Nat) : escBytes .Asc l = escAsc l := rfl

theorem escBytes_desc (l : List Nat) : escBytes .Desc l = escDesc l := rfl

/-- Tagged byte-string encodings compare as the underlying byte strings
(reversed for descending). -/
theorem escPair (t : Nat) (sa sb : List Nat) (o : SortOrder)
    (ha : ∀ x ∈ sa, x < 256) (hb : ∀ x ∈ sb, x < 256) :
    lexCmp ((if o.isAsc then [t] else [255 - t]) ++ escBytes o sa)
      ((if o.isAsc then [t] else [255 - t]) ++ escBytes o sb)
      = if o.isAsc then lexCmp sa sb else lexCmp sb sa := by
  cases o
  · simp only [ite_isAsc_asc, escBytes_asc, List.cons_append, List.nil_append]
    rw [lexCmp_cons_same, lexCmp_escAsc]
  · simp only [ite_isAsc_desc, escBytes_desc, List.cons_append, List.nil_append]
    rw [lexCmp_cons_same, lexCmp_escDesc ha hb]

/-- Tagged i32 encodings compare as the integers (reversed descending). -/
theorem intPair (i j : Int) (o : SortOrder)
    (hi0 : -(2 ^ 31) ≤ i) (hi1 : i < 2 ^ 31)
    (hj0 : -(2 ^ 31) ≤ j) (hj1 : j < 2 ^ 31) :
    lexCmp ((if o.isAsc then [4] else [255 - 4]) ++ i32SortableBytes o i)
      ((if o.isAsc then [4] else [255 - 4]) ++ i32SortableBytes o j)
      = if o.isAsc then intCmp i j else intCmp j i := by
  cases o
  · simp only [ite_isAsc_asc, List.cons_append, List.nil_append]
    rw [lexCmp_cons_same, i32Payload_asc hi0 hi1 hj0 hj1]
  · simp only [ite_isAsc_desc, List.cons_append, List.nil_append]
    rw [lexCmp_cons_same, i32Payload_desc hi0 hi1 hj0 hj1]

/-- Tagged i64 encodings compare as the integers (reversed descending). -/
theorem bigintPair (i j : Int) (o : SortOrder)
    (hi0 : -(2 ^ 63) ≤ i) (hi1 : i < 2 ^ 63)
    (hj0 : -(2 ^ 63) ≤ j) (hj1 : j < 2 ^ 63) :
    lexCmp ((if o.isAsc then [5] else [255 - 5]) ++ i64SortableBytes o i)
      ((if o.isAsc then [5] else [255 - 5]) ++ i64SortableBytes o j)
      = if o.isAsc then intCmp i j else intCmp j i := by
  cases o
  · simp only [ite_isAsc_asc, List.cons_append, List.nil_append]
    rw [lexCmp_cons_same, i64Payload_asc hi0 hi1 hj0 hj1]
  · simp only [ite_isAsc_desc, List.cons_append, List.nil_append]
    rw [lexCmp_cons_same, i64Payload_desc hi0 hi1 hj0 hj1]

/-- Tagged decimal encodings compare as the decimals (reversed desc). -/
theorem decPair (a b : Dec) (o : SortOrder) (ha : a.wfB = true)
    (hb : b.wfB = true) :
    lexCmp ((if o.isAsc then [6] else [255 - 6]) ++ decSortableBytes o a)
      ((if o.isAsc then [6] else [255 - 6]) ++ decSortableBytes o b)
      = if o.isAsc then Dec.cmp a b else Dec.cmp b a := by
  cases o
  · simp only [ite_isAsc_asc, List.cons_append, List.nil_append]
    rw [lexCmp_cons_same, decPayload_asc ha hb]
  · simp only [ite_isAsc_desc, List.cons_append, List.nil_append]
    rw [lexCmp_cons_same, decPayload_desc ha hb]

/-- Core order-preservation: for well-formed datums of the same type
family (or when either is Null), the lexicographic comparison of the
sortable encodings equals the datum comparison under the sort order. -/
theorem lexCmp_enc (d1 d2 : Datum) (o : SortOrder) (h1 : d1.wfB = true)
    (h2 : d2.wfB = true)
    (hfam : d1.family = d2.family ∨ d1 = .Null ∨ d2 = .Null) :
    lexCmp (d1.asSortableBytes o) (d2.asSortableBytes o) = cmpOrd o d1 d2 := by
  cases d1 with
  | Null =>
    cases d2 with
    | Null => cases o <;> simp [Datum.asSortableBytes, cmpOrd, Datum.cmp, Datum.isNull, SortOrder.isAsc,
          lexCmp, natCmp, boolCmp, Datum.asMaybeBoolean, Datum.asMaybeInteger,
          Datum.asMaybeBigint, Datum.asMaybeDecimal, Datum.asMaybeBytea,
          Datum.asMaybeJsonpath, List.cons_append, List.nil_append]
    | Boolean b2 => cases b2 <;> cases o <;> simp [Datum.asSortableBytes, cmpOrd, Datum.cmp, Datum.isNull, SortOrder.isAsc,
          lexCmp, natCmp, boolCmp, Datum.asMaybeBoolean, Datum.asMaybeInteger,
          Datum.asMaybeBigint, Datum.asMaybeDecimal, Datum.asMaybeBytea,
          Datum.asMaybeJsonpath, List.cons_append, List.nil_append]
    | ByteARef s2 => cases o <;> simp [Datum.asSortableBytes, cmpOrd, Datum.cmp, Datum.isNull, SortOrder.isAsc,
          lexCmp, natCmp, boolCmp, Datum.asMaybeBoolean, Datum.asMaybeInteger,
          Datum.asMaybeBigint, Datum.asMaybeDecimal, Datum.asMaybeBytea,
          Datum.asMaybeJsonpath, List.cons_append, List.nil_append]
    | ByteAOwned s2 => cases o <;> simp [Datum.asSortableBytes, cmpOrd, Datum.cmp, Datum.isNull, SortOrder.isAsc,
          lexCmp, natCmp, boolCmp, Datum.asMaybeBoolean, Datum.asMaybeInteger,
          Datum.asMaybeBigint, Datum.asMaybeDecimal, Datum.asMaybeBytea,
          Datum.asMaybeJsonpath, List.cons_append, List.nil_append]
    | ByteAInline l2 b2 => cases o <;> simp [Datum.asSortableBytes, cmpOrd, Datum.cmp, Datum.isNull, SortOrder.isAsc,
          lexCmp, natCmp, boolCmp, Datum.asMaybeBoolean, Datum.asMaybeInteger,
          Datum.asMaybeBigint, Datum.asMaybeDecimal, Datum.asMaybeBytea,
          Datum.asMaybeJsonpath, List.cons_append, List.nil_append]
    | Integer j => cases o <;> simp [Datum.asSortableBytes, cmpOrd, Datum.cmp, Datum.isNull, SortOrder.isAsc,
          lexCmp, natCmp, boolCmp, Datum.asMaybeBoolean, Datum.asMaybeInteger,
          Datum.asMaybeBigint, Datum.asMaybeDecimal, Datum.asMaybeBytea,
          Datum.asMaybeJsonpath, List.cons_append, List.nil_append]
    | BigInt j => cases o <;> simp [Datum.asSortableBytes, cmpOrd, Datum.cmp, Datum.isNull, SortOrder.isAsc,
          lexCmp, natCmp, boolCmp, Datum.asMaybeBoolean, Datum.asMaybeInteger,
          Datum.asMaybeBigint, Datum.asMaybeDecimal, Datum.asMaybeBytea,
          Datum.asMaybeJsonpath, List.cons_append, List.nil_append]
    | Decimal db => cases o <;> simp [Datum.asSortableBytes, cmpOrd, Datum.cmp, Datum.isNull, SortOrder.isAsc,
          lexCmp, natCmp, boolCmp, Datum.asMaybeBoolean, Datum.asMaybeInteger,
          Datum.asMaybeBigint, Datum.asMaybeDecimal, Datum.asMaybeBytea,
          Datum.asMaybeJsonpath, List.cons_append, List.nil_append]
    | Jsonpath e2 => cases o <;> simp [Datum.asSortableBytes, cmpOrd, Datum.cmp, Datum.isNull, SortOrder.isAsc,
          lexCmp, natCmp, boolCmp, Datum.asMaybeBoolean, Datum.asMaybeInteger,
          Datum.asMaybeBigint, Datum.asMaybeDecimal, Datum.asMaybeBytea,
          Datum.asMaybeJsonpath, List.cons_append, List.nil_append]
    | JsonpathRef e2 => cases o <;> simp [Datum.asSortableBytes, cmpOrd, Datum.cmp, Datum.isNull, SortOrder.isAsc,
          lexCmp, natCmp, boolCmp, Datum.asMaybeBoolean, Datum.asMaybeInteger,
          Datum.asMaybeBigint, Datum.asMaybeDecimal, Datum.asMaybeBytea,
          Datum.asMaybeJsonpath, List.cons_append, List.nil_append]
  | Boolean b1 =>
    cases d2 with
    | Null => cases b1 <;> cases o <;> simp [Datum.asSortableBytes, cmpOrd, Datum.cmp, Datum.isNull, SortOrder.isAsc,
          lexCmp, natCmp, boolCmp, Datum.asMaybeBoolean, Datum.asMaybeInteger,
          Datum.asMaybeBigint, Datum.asMaybeDecimal, Datum.asMaybeBytea,
          Datum.asMaybeJsonpath, List.cons_append, List.nil_append]
    | Boolean b2 =>
      cases b1 <;> cases b2 <;> cases o <;> simp [Datum.asSortableBytes, cmpOrd, Datum.cmp, Datum.isNull, SortOrder.isAsc,
          lexCmp, natCmp, boolCmp, Datum.asMaybeBoolean, Datum.asMaybeInteger,
          Datum.asMaybeBigint, Datum.asMaybeDecimal, Datum.asMaybeBytea,
          Datum.asMaybeJsonpath, List.cons_append, List.nil_append]
    | ByteARef s2 => simp [Datum.family] at hfam
    | ByteAOwned s2 => simp [Datum.family] at hfam
    | ByteAInline l2 b2 => simp [Datum.family] at hfam
    | Integer j => simp [Datum.family] at hfam
    | BigInt j => simp [Datum.family] at hfam
    | Decimal db => simp [Datum.family] at hfam
    | Jsonpath e2 => simp [Datum.family] at hfam
    | JsonpathRef e2 => simp [Datum.family] at hfam
  | ByteARef s1 =>
    cases d2 with
    | Null => cases o <;> simp [Datum.asSortableBytes, cmpOrd, Datum.cmp, Datum.isNull, SortOrder.isAsc,
          lexCmp, natCmp, boolCmp, Datum.asMaybeBoolean, Datum.asMaybeInteger,
          Datum.asMaybeBigint, Datum.asMaybeDecimal, Datum.asMaybeBytea,
          Datum.asMaybeJsonpath, List.cons_append, List.nil_append]
    | Boolean b2 => simp [Datum.family] at hfam
    | ByteARef s2 =>
      simp only [Datum.wfB, bytesWfB, List.all_eq_true,
        decide_eq_true_eq] at h1
      simp only [Datum.wfB, bytesWfB, List.all_eq_true,
        decide_eq_true_eq] at h2
      simp only [Datum.asSortableBytes, Datum.asMaybeBytea, Option.getD_some]
      rw [escPair 7 _ _ o h1 h2]
      cases o <;> simp [cmpOrd, SortOrder.isAsc, Datum.cmp,
        Datum.asMaybeBytea, ite_isAsc_asc, ite_isAsc_desc, Option.getD_some]
    | ByteAOwned s2 =>
      simp only [Datum.wfB, bytesWfB, List.all_eq_true,
        decide_eq_true_eq] at h1
      simp only [Datum.wfB, bytesWfB, List.all_eq_true,
        decide_eq_true_eq] at h2
      simp only [Datum.asSortableBytes, Datum.asMaybeBytea, Option.getD_some]
      rw [escPair 7 _ _ o h1 h2]
      cases o <;> simp [cmpOrd, SortOrder.isAsc, Datum.cmp,
        Datum.asMaybeBytea, ite_isAsc_asc, ite_isAsc_desc, Option.getD_some]
    | ByteAInline l2 b2 =>
      simp only [Datum.wfB, bytesWfB, List.all_eq_true,
        decide_eq_true_eq] at h1
      simp only [Datum.wfB, bytesWfB, Bool.and_eq_true, List.all_eq_true,
        decide_eq_true_eq] at h2
      have h2t : ∀ x ∈ (b2).take l2, x < 256 := fun x hx =>
        h2.2 x (List.take_subset _ _ hx)
      simp only [Datum.asSortableBytes, Datum.asMaybeBytea, Option.getD_some]
      rw [escPair 7 _ _ o h1 h2t]
      cases o <;> simp [cmpOrd, SortOrder.isAsc, Datum.cmp,
        Datum.asMaybeBytea, ite_isAsc_asc, ite_isAsc_desc, Option.getD_some]
    | Integer j => simp [Datum.family] at hfam
    | BigInt j => simp [Datum.family] at hfam
    | Decimal db => simp [Datum.family] at hfam
    | Jsonpath e2 => simp [Datum.family] at hfam
    | JsonpathRef e2 => simp [Datum.family] at hfam
  | ByteAOwned s1 =>
    cases d2 with
    | Null => cases o <;> simp [Datum.asSortableBytes, cmpOrd, Datum.cmp, Datum.isNull, SortOrder.isAsc,
          lexCmp, natCmp, boolCmp, Datum.asMaybeBoolean, Datum.asMaybeInteger,
          Datum.asMaybeBigint, Datum.asMaybeDecimal, Datum.asMaybeBytea,
          Datum.asMaybeJsonpath, List.cons_append, List.nil_append]
    | Boolean b2 => simp [Datum.family] at hfam
    | ByteARef s2 =>
      simp only [Datum.wfB, bytesWfB, List.all_eq_true,
        decide_eq_true_eq] at h1
      simp only [Datum.wfB, bytesWfB, List.all_eq_true,
        decide_eq_true_eq] at h2
      simp only [Datum.asSortableBytes, Datum.asMaybeBytea, Option.getD_some]
      rw [escPair 7 _ _ o h1 h2]
      cases o <;> simp [cmpOrd, SortOrder.isAsc, Datum.cmp,
        Datum.asMaybeBytea, ite_isAsc_asc, ite_isAsc_desc, Option.getD_some]
    | ByteAOwned s2 =>
      simp only [Datum.wfB, bytesWfB, List.all_eq_true,
        decide_eq_true_eq] at h1
      simp only [Datum.wfB, bytesWfB, List.all_eq_true,
        decide_eq_true_eq] at h2
      simp only [Datum.asSortableBytes, Datum.asMaybeBytea, Option.getD_some]
      rw [escPair 7 _ _ o h1 h2]
      cases o <;> simp [cmpOrd, SortOrder.isAsc, Datum.cmp,
        Datum.asMaybeBytea, ite_isAsc_asc, ite_isAsc_desc, Option.getD_some]
    | ByteAInline l2 b2 =>
      simp only [Datum.wfB, bytesWfB, List.all_eq_true,
        decide_eq_true_eq] at h1
      simp only [Datum.wfB, bytesWfB, Bool.and_eq_true, List.all_eq_true,
        decide_eq_true_eq] at h2
      have h2t : ∀ x ∈ (b2).take l2, x < 256 := fun x hx =>
        h2.2 x (List.take_subset _ _ hx)
      simp only [Datum.asSortableBytes, Datum.asMaybeBytea, Option.getD_some]
      rw [escPair 7 _ _ o h1 h2t]
      cases o <;> simp [cmpOrd, SortOrder.isAsc, Datum.cmp,
        Datum.asMaybeBytea, ite_isAsc_asc, ite_isAsc_desc, Option.getD_some]
    | Integer j => simp [Datum.family] at hfam
    | BigInt j => simp [Datum.family] at hfam
    | Decimal db => simp [Datum.family] at hfam
    | Jsonpath e2 => simp [Datum.family] at hfam
    | JsonpathRef e2 => simp [Datum.family] at hfam
  | ByteAInline l1 b1 =>
    cases d2 with
    | Null => cases o <;> simp [Datum.asSortableBytes, cmpOrd, Datum.cmp, Datum.isNull, SortOrder.isAsc,
          lexCmp, natCmp, boolCmp, Datum.asMaybeBoolean, Datum.asMaybeInteger,
          Datum.asMaybeBigint, Datum.asMaybeDecimal, Datum.asMaybeBytea,
          Datum.asMaybeJsonpath, List.cons_append, List.nil_append]
    | Boolean b2 => simp [Datum.family] at hfam
    | ByteARef s2 =>
      simp only [Datum.wfB, bytesWfB, Bool.and_eq_true, List.all_eq_true,
        decide_eq_true_eq] at h1
      have h1t : ∀ x ∈ (b1).take l1, x < 256 := fun x hx =>
        h1.2 x (List.take_subset _ _ hx)
      simp only [Datum.wfB, bytesWfB, List.all_eq_true,
        decide_eq_true_eq] at h2
      simp only [Datum.asSortableBytes, Datum.asMaybeBytea, Option.getD_some]
      rw [escPair 7 _ _ o h1t h2]
      cases o <;> simp [cmpOrd, SortOrder.isAsc, Datum.cmp,
        Datum.asMaybeBytea, ite_isAsc_asc, ite_isAsc_desc, Option.getD_some]
    | ByteAOwned s2 =>
      simp only [Datum.wfB, bytesWfB, Bool.and_eq_true, List.all_eq_true,
        decide_eq_true_eq] at h1
      have h1t : ∀ x ∈ (b1).take l1, x < 256 := fun x hx =>
        h1.2 x (List.take_subset _ _ hx)
      simp only [Datum.wfB, bytesWfB, List.all_eq_true,
        decide_eq_true_eq] at h2
      simp only [Datum.asSortableBytes, Datum.asMaybeBytea, Option.getD_some]
      rw [escPair 7 _ _ o h1t h2]
      cases o <;> simp [cmpOrd, SortOrder.isAsc, Datum.cmp,
        Datum.asMaybeBytea, ite_isAsc_asc, ite_isAsc_desc, Option.getD_some]
    | ByteAInline l2 b2 =>
      simp only [Datum.wfB, bytesWfB, Bool.and_eq_true, List.all_eq_true,
        decide_eq_true_eq] at h1
      have h1t : ∀ x ∈ (b1).take l1, x < 256 := fun x hx =>
        h1.2 x (List.take_subset _ _ hx)
      simp only [Datum.wfB, bytesWfB, Bool.and_eq_true, List.all_eq_true,
        decide_eq_true_eq] at h2
      have h2t : ∀ x ∈ (b2).take l2, x < 256 := fun x hx =>
        h2.2 x (List.take_subset _ _ hx)
      simp only [Datum.asSortableBytes, Datum.asMaybeBytea, Option.getD_some]
      rw [escPair 7 _ _ o h1t h2t]
      cases o <;> simp [cmpOrd, SortOrder.isAsc, Datum.cmp,
        Datum.asMaybeBytea, ite_isAsc_asc, ite_isAsc_desc, Option.getD_some]
    | Integer j => simp [Datum.family] at hfam
    | BigInt j => simp [Datum.family] at hfam
    | Decimal db => simp [Datum.family] at hfam
    | Jsonpath e2 => simp [Datum.family] at hfam
    | JsonpathRef e2 => simp [Datum.family] at hfam
  | Integer i =>
    cases d2 with
    | Null => cases o <;> simp [Datum.asSortableBytes, cmpOrd, Datum.cmp, Datum.isNull, SortOrder.isAsc,
          lexCmp, natCmp, boolCmp, Datum.asMaybeBoolean, Datum.asMaybeInteger,
          Datum.asMaybeBigint, Datum.asMaybeDecimal, Datum.asMaybeBytea,
          Datum.asMaybeJsonpath, List.cons_append, List.nil_append]
    | Boolean b2 => simp [Datum.family] at hfam
    | ByteARef s2 => simp [Datum.family] at hfam
    | ByteAOwned s2 => simp [Datum.family] at hfam
    | ByteAInline l2 b2 => simp [Datum.family] at hfam
    | Integer j =>
      simp only [Datum.wfB, Bool.and_eq_true, decide_eq_true_eq] at h1 h2
      simp only [Datum.asSortableBytes]
      rw [intPair i j o h1.1 h1.2 h2.1 h2.2]
      cases o <;> simp [cmpOrd, SortOrder.isAsc, Datum.cmp,
        Datum.asMaybeInteger, ite_isAsc_asc, ite_isAsc_desc]
    | BigInt j => simp [Datum.family] at hfam
    | Decimal db => simp [Datum.family] at hfam
    | Jsonpath e2 => simp [Datum.family] at hfam
    | JsonpathRef e2 => simp [Datum.family] at hfam
  | BigInt i =>
    cases d2 with
    | Null => cases o <;> simp [Datum.asSortableBytes, cmpOrd, Datum.cmp, Datum.isNull, SortOrder.isAsc,
          lexCmp, natCmp, boolCmp, Datum.asMaybeBoolean, Datum.asMaybeInteger,
          Datum.asMaybeBigint, Datum.asMaybeDecimal, Datum.asMaybeBytea,
          Datum.asMaybeJsonpath, List.cons_append, List.nil_append]
    | Boolean b2 => simp [Datum.family] at hfam
    | ByteARef s2 => simp [Datum.family] at hfam
    | ByteAOwned s2 => simp [Datum.family] at hfam
    | ByteAInline l2 b2 => simp [Datum.family] at hfam
    | Integer j => simp [Datum.family] at hfam
    | BigInt j =>
      simp only [Datum.wfB, Bool.and_eq_true, decide_eq_true_eq] at h1 h2
      simp only [Datum.asSortableBytes]
      rw [bigintPair i j o h1.1 h1.2 h2.1 h2.2]
      cases o <;> simp [cmpOrd, SortOrder.isAsc, Datum.cmp,
        Datum.asMaybeBigint, ite_isAsc_asc, ite_isAsc_desc]
    | Decimal db => simp [Datum.family] at hfam
    | Jsonpath e2 => simp [Datum.family] at hfam
    | JsonpathRef e2 => simp [Datum.family] at hfam
  | Decimal da =>
    cases d2 with
    | Null => cases o <;> simp [Datum.asSortableBytes, cmpOrd, Datum.cmp, Datum.isNull, SortOrder.isAsc,
          lexCmp, natCmp, boolCmp, Datum.asMaybeBoolean, Datum.asMaybeInteger,
          Datum.asMaybeBigint, Datum.asMaybeDecimal, Datum.asMaybeBytea,
          Datum.asMaybeJsonpath, List.cons_append, List.nil_append]
    | Boolean b2 => simp [Datum.family] at hfam
    | ByteARef s2 => simp [Datum.family] at hfam
    | ByteAOwned s2 => simp [Datum.family] at hfam
    | ByteAInline l2 b2 => simp [Datum.family] at hfam
    | Integer j => simp [Datum.family] at hfam
    | BigInt j => simp [Datum.family] at hfam
    | Decimal db =>
      have hw1 : da.wfB = true := by simpa [Datum.wfB] using h1
      have hw2 : db.wfB = true := by simpa [Datum.wfB] using h2
      simp only [Datum.asSortableBytes]
      rw [decPair da db o hw1 hw2]
      cases o <;> simp [cmpOrd, SortOrder.isAsc, Datum.cmp,
        Datum.asMaybeDecimal, ite_isAsc_asc, ite_isAsc_desc]
    | Jsonpath e2 => simp [Datum.family] at hfam
    | JsonpathRef e2 => simp [Datum.family] at hfam
  | Jsonpath e1 =>
    cases d2 with
    | Null => cases o <;> simp [Datum.asSortableBytes, cmpOrd, Datum.cmp, Datum.isNull, SortOrder.isAsc,
          lexCmp, natCmp, boolCmp, Datum.asMaybeBoolean, Datum.asMaybeInteger,
          Datum.asMaybeBigint, Datum.asMaybeDecimal, Datum.asMaybeBytea,
          Datum.asMaybeJsonpath, List.cons_append, List.nil_append]
    | Boolean b2 => simp [Datum.family] at hfam
    | ByteARef s2 => simp [Datum.family] at hfam
    | ByteAOwned s2 => simp [Datum.family] at hfam
    | ByteAInline l2 b2 => simp [Datum.family] at hfam
    | Integer j => simp [Datum.family] at hfam
    | BigInt j => simp [Datum.family] at hfam
    | Decimal db => simp [Datum.family] at hfam
    | Jsonpath e2 =>
      simp only [Datum.wfB, bytesWfB, List.all_eq_true,
        decide_eq_true_eq] at h1
      simp only [Datum.wfB, bytesWfB, List.all_eq_true,
        decide_eq_true_eq] at h2
      simp only [Datum.asSortableBytes]
      rw [escPair 8 _ _ o h1 h2]
      cases o <;> simp [cmpOrd, SortOrder.isAsc, Datum.cmp,
        Datum.asMaybeJsonpath, ite_isAsc_asc, ite_isAsc_desc, Option.getD_some]
    | JsonpathRef e2 =>
      simp only [Datum.wfB, bytesWfB, List.all_eq_true,
        decide_eq_true_eq] at h1
      simp only [Datum.wfB, bytesWfB, List.all_eq_true,
        decide_eq_true_eq] at h2
      simp only [Datum.asSortableBytes]
      rw [escPair 8 _ _ o h1 h2]
      cases o <;> simp [cmpOrd, SortOrder.isAsc, Datum.cmp,
        Datum.asMaybeJsonpath, ite_isAsc_asc, ite_isAsc_desc, Option.getD_some]
  | JsonpathRef e1 =>
    cases d2 with
    | Null => cases o <;> simp [Datum.asSortableBytes, cmpOrd, Datum.cmp, Datum.isNull, SortOrder.isAsc,
          lexCmp, natCmp, boolCmp, Datum.asMaybeBoolean, Datum.asMaybeInteger,
          Datum.asMaybeBigint, Datum.asMaybeDecimal, Datum.asMaybeBytea,
          Datum.asMaybeJsonpath, List.cons_append, List.nil_append]
    | Boolean b2 => simp [Datum.family] at hfam
    | ByteARef s2 => simp [Datum.family] at hfam
    | ByteAOwned s2 => simp [Datum.family] at hfam
    | ByteAInline l2 b2 => simp [Datum.family] at hfam
    | Integer j => simp [Datum.family] at hfam
    | BigInt j => simp [Datum.family] at hfam
    | Decimal db => simp [Datum.family] at hfam
    | Jsonpath e2 =>
      simp only [Datum.wfB, bytesWfB, List.all_eq_true,
        decide_eq_true_eq] at h1
      simp only [Datum.wfB, bytesWfB, List.all_eq_true,
        decide_eq_true_eq] at h2
      simp only [Datum.asSortableBytes]
      rw [escPair 8 _ _ o h1 h2]
      cases o <;> simp [cmpOrd, SortOrder.isAsc, Datum.cmp,
        Datum.asMaybeJsonpath, ite_isAsc_asc, ite_isAsc_desc, Option.getD_some]
    | JsonpathRef e2 =>
      simp only [Datum.wfB, bytesWfB, List.all_eq_true,
        decide_eq_true_eq] at h1
      simp only [Datum.wfB, bytesWfB, List.all_eq_true,
        decide_eq_true_eq] at h2
      simp only [Datum.asSortableBytes]
      rw [escPair 8 _ _ o h1 h2]
      cases o <;> simp [cmpOrd, SortOrder.isAsc, Datum.cmp,
        Datum.asMaybeJsonpath, ite_isAsc_asc, ite_isAsc_desc, Option.getD_some]

/-- C2 (amended): for well-formed datums of the same type family (or when
either side is Null), the sortable encoding of d1 is lexicographically at
most that of d2 iff the total-order comparison of d1 and d2 under the
sort order is at most equal. -/
theorem sortable_order_le_iff (d1 d2 : Datum) (o : SortOrder)
    (h1 : d1.wfB = true) (h2 : d2.wfB = true)
    (hfam : d1.family = d2.family ∨ d1 = .Null ∨ d2 = .Null) :
    (lexCmp (d1.asSortableBytes o) (d2.asSortableBytes o) ≠ Ordering.gt
      ↔ cmpOrd o d1 d2 ≠ Ordering.gt) := by
  rw [lexCmp_enc d1 d2 o h1 h2 hfam]

/-- C2 witness: the amended statement applied at Integer 3 versus
Integer 5 ascending. -/
theorem sortable_order_le_iff_witness :
    (Datum.Integer 3).wfB = true ∧ (Datum.Integer 5).wfB = true ∧
    ((lexCmp ((Datum.Integer 3).asSortableBytes .Asc)
        ((Datum.Integer 5).asSortableBytes .Asc) ≠ Ordering.gt)
      ↔ cmpOrd .Asc (Datum.Integer 3) (Datum.Integer 5) ≠ Ordering.gt) :=
  ⟨by decide, by decide,
    sortable_order_le_iff (Datum.Integer 3) (Datum.Integer 5) .Asc
      (by decide) (by decide) (Or.inl rfl)⟩

/-- C2 counterexample: the claim as stated — quantified over all pairs of
datums — is false. `Datum::cmp` answers `Greater` whenever the right-hand
side has a different non-null type, so for d1 = Boolean(false) and
d2 = Integer(0) ascending the encoding of d1 is lexicographically smaller
(tag byte 2 < 4) while the comparison says greater. -/
theorem sortable_order_le_iff_cex :
    ¬ (∀ (d1 d2 : Datum) (o : SortOrder), d1.wfB = true → d2.wfB = true →
        (lexCmp (d1.asSortableBytes o) (d2.asSortableBytes o) ≠ Ordering.gt
          ↔ cmpOrd o d1 d2 ≠ Ordering.gt)) := by
  intro hclaim
  have h := hclaim (.Boolean false) (.Integer 0) .Asc (by decide) (by decide)
  have hlex : lexCmp ((Datum.Boolean false).asSortableBytes .Asc)
      ((Datum.Integer 0).asSortableBytes .Asc) ≠ Ordering.gt := by decide
  have hcmp : cmpOrd .Asc (.Boolean false) (.Integer 0) = Ordering.gt := by decide
  exact (h.mp hlex) hcmp

/-- C1 witness: the round-trip theorem applied to Integer 5, descending,
with a trailing byte. -/
theorem sortable_roundtrip_witness :
    (Datum.Integer 5).wfB = true ∧
    (∃ d', Datum.fromSortableBytes
        ((Datum.Integer 5).asSortableBytes .Desc ++ [9]) = some (d', [9])
      ∧ Datum.sqlEq d' (Datum.Integer 5) true = true) :=
  ⟨by decide, sortable_roundtrip (Datum.Integer 5) .Desc [9] (by decide)⟩

/-! ## C4: the executor error type (src/src/executor/src/lib.rs) -/

/-- `StorageError` from src/src/storage/src/error.rs: a single variant
wrapping the underlying rocksdb error, modelled opaquely by its message. -/
inductive StorageError
  | RocksDbError (message : String)
deriving DecidableEq, Repr

/-- `ExecutionError` from src/src/executor/src/lib.rs lines 10-29: the
executor error enum. The source declares exactly one variant,
`StorageError(StorageError)`. -/
inductive ExecutionError
  | StorageError (err : StorageError)
deriving DecidableEq, Repr

/-- `impl From<StorageError> for ExecutionError` (lib.rs lines 25-29). -/
def executionErrorFromStorage (err : StorageError) : ExecutionError :=
  .StorageError err

/-- C4 counterexample: the claim asserts the executor error type has a
`Killed` kind distinct from the storage kind; no such value exists —
every `ExecutionError` is a `StorageError`. -/
theorem executionError_killed_cex :
    ¬ ∃ e : ExecutionError, ∀ s : StorageError,
        e ≠ ExecutionError.StorageError s := by
  rintro ⟨e, h⟩
  cases e with
  | StorageError s => exact h s rfl

/-- C4 (amended): `ExecutionError` has exactly one kind: every executor
error wraps a storage error, and `From<StorageError>` produces it; there
is no `Killed` kind, so no executor can fail with one even after a
session's kill_flag is set. -/
theorem executionError_only_storage (e : ExecutionError) :
    (∃ s, e = ExecutionError.StorageError s)
    ∧ (∀ s, executionErrorFromStorage s = ExecutionError.StorageError s) := by
  refine ⟨?_, fun s => rfl⟩
  cases e with
  | StorageError s => exact ⟨s, rfl⟩

/-! ## C8: rendering a ByteA datum as lowercase hex (datum.rs lines 308-321) -/

/-- Lowercase hexadecimal digit (value below 16). -/
def hexDigit (n : Nat) : Char :=
  if n < 10 then Char.ofNat (48 + n) else Char.ofNat (87 + n)

/-- Rust's `{:x}` formatting of one byte: minimal lowercase hex digits
with no zero padding — a single digit for values below 16. This is what
the `_` arm of `impl Display for TypedDatum` writes per byte
(`f.write_fmt(format_args!("{:x}", b))`). -/
def lowerHex (b : Nat) : List Char :=
  if b < 16 then [hexDigit b] else [hexDigit (b / 16), hexDigit (b % 16)]

/-- The ByteA arm of `impl Display for TypedDatum` (non-alternate): each
byte of the datum is written with `{:x}` and the pieces concatenated. -/
def displayByteA (bytes : List Nat) : List Char :=
  (bytes.map lowerHex).flatten

/-- The rendering the claim describes: exactly two lowercase hex digits
per byte. -/
def displayByteATwoDigit (bytes : List Nat) : List Char :=
  (bytes.map (fun b => [hexDigit (b / 16), hexDigit (b % 16)])).flatten

/-- C8: the code renders byte 0x0a as the single character "a", not the
two-digit "0a" the claim requires; the unpadded form is ambiguous — the
byte strings [1, 2] and [0x12] render identically. -/
theorem displayByteA_single_digit :
    displayByteA [10] = ['a']
    ∧ displayByteATwoDigit [10] = ['0', 'a']
    ∧ displayByteA [10] ≠ displayByteATwoDigit [10]
    ∧ displayByteA [1, 2] = displayByteA [18] := by
  decide

/-! ## C9: identifier quoting (src/src/ast/src/expr.rs lines 198-289) -/

/-- `IDENTIFIER_OK` from src/src/ast/src/expr.rs lines 198-201: the regex
`^([a-z]|_)([a-z,0-9]|_)*$`. The character class `[a-z,0-9]` of the
source contains a literal comma, so a comma is accepted after the first
character. -/
def identifierOk (s : List Char) : Bool :=
  match s with
  | [] => false
  | c :: rest =>
    ((decide ('a' ≤ c) && decide (c ≤ 'z')) || decide (c = '_')) &&
      rest.all (fun x =>
        (decide ('a' ≤ x) && decide (x ≤ 'z')) || decide (x = ',')
          || (decide ('0' ≤ x) && decide (x ≤ '9')) || decide (x = '_'))

/-- The identifier regex stated by the spec: `^[a-z_][a-z0-9_]*$`. -/
def identifierOkSpec (s : List Char) : Bool :=
  match s with
  | [] => false
  | c :: rest =>
    ((decide ('a' ≤ c) && decide (c ≤ 'z')) || decide (c = '_')) &&
      rest.all (fun x =>
        (decide ('a' ≤ x) && decide (x ≤ 'z'))
          || (decide ('0' ≤ x) && decide (x ≤ '9')) || decide (x = '_'))

/-- Identifier rendering of the Display impls in expr.rs: the identifier
is wrapped in back-ticks exactly when `IDENTIFIER_OK` does not match. -/
def quoteIdentifier (s : List Char) : List Char :=
  if identifierOk s then s else Char.ofNat 96 :: (s ++ [Char.ofNat 96])

/-- C9: the identifier `a,b` matches the source's `IDENTIFIER_OK` (the
comma inside `[a-z,0-9]`) and is rendered without back-ticks, while the
spec's regex `^[a-z_][a-z0-9_]*$` rejects it and the claim would require
back-tick quoting. -/
theorem identifierOk_comma :
    identifierOk ['a', ',', 'b'] = true
    ∧ identifierOkSpec ['a', ',', 'b'] = false
    ∧ quoteIdentifier ['a', ',', 'b'] = ['a', ',', 'b'] := by
  decide

/-! ## C10: Runtime::kill_connection (src/src/runtime/src/lib.rs lines 81-98) -/

/-- The session state reached through a connection: its id and the
atomic kill_flag (spec §5: "Each Session carries an atomic kill_flag";
session.rs of the data crate is not under src). -/
structure Session where
  connection_id : Nat
  kill_flag : Bool
deriving DecidableEq, Repr

/-- `ConnectionsState` from src/src/runtime/src/lib.rs lines 26-30: the
connection-id counter and the map of connection id to weak connection
handle. A weak handle whose connection has been dropped upgrades to
nothing; otherwise it reaches the connection's session. -/
structure ConnectionsState where
  connection_id_counter : Nat
  connections : List (Nat × Option Session)
deriving DecidableEq, Repr

/-- `Runtime::kill_connection` (lines 81-92): looks the id up in the
connections map and, when the weak handle still upgrades, stores true
into that session's kill_flag; otherwise nothing happens. -/
def killConnection (st : ConnectionsState) (id : Nat) : ConnectionsState :=
  { st with
    connections := st.connections.map fun e =>
      if e.1 = id then (e.1, e.2.map fun s => { s with kill_flag := true })
      else e }

/-- `Runtime::remove_connection` (lines 94-98): drops the map entry for
the id. -/
def removeConnection (st : ConnectionsState) (id : Nat) : ConnectionsState :=
  { st with connections := st.connections.filter fun e => e.1 ≠ id }

/-- C10: `kill_connection id` sets the kill_flag of exactly the session
of connection id; the counter, the set of map keys and every other entry
are unchanged; an entry whose connection was dropped stays a dropped
entry; and an absent id makes the call a no-op. -/
theorem killConnection_frame (st : ConnectionsState) (id : Nat) :
    (killConnection st id).connection_id_counter = st.connection_id_counter
    ∧ (killConnection st id).connections.map Prod.fst
        = st.connections.map Prod.fst
    ∧ (∀ e ∈ st.connections, e.1 ≠ id → e ∈ (killConnection st id).connections)
    ∧ (∀ s : Session, (id, some s) ∈ st.connections →
        (id, some { s with kill_flag := true }) ∈ (killConnection st id).connections)
    ∧ ((id, (none : Option Session)) ∈ st.connections →
        (id, (none : Option Session)) ∈ (killConnection st id).connections)
    ∧ (id ∉ st.connections.map Prod.fst → killConnection st id = st) := by
  obtain ⟨cnt, conns⟩ := st
  refine ⟨rfl, ?_, ?_, ?_, ?_, ?_⟩
  · simp only [killConnection, List.map_map]
    apply List.map_congr_left
    intro e he
    by_cases h : e.1 = id <;> simp [h]
  · intro e he hne
    simp only [killConnection, List.mem_map]
    exact ⟨e, he, by simp [hne]⟩
  · intro s hs
    simp only [killConnection, List.mem_map]
    exact ⟨(id, some s), hs, by simp⟩
  · intro hn
    simp only [killConnection, List.mem_map]
    exact ⟨(id, none), hn, by simp⟩
  · intro hid
    simp only [killConnection, ConnectionsState.mk.injEq, true_and]
    have hne : ∀ e ∈ conns, e.1 ≠ id := by
      intro e he hcontra
      exact hid (by simpa [← hcontra] using List.mem_map_of_mem Prod.fst he)
    calc conns.map (fun e =>
        if e.1 = id then (e.1, e.2.map fun s => { s with kill_flag := true })
        else e)
        = conns.map (fun e => e) := by
          apply List.map_congr_left
          intro e he
          simp [hne e he]
      _ = conns := List.map_id' conns

/-- An example connections state with two live sessions and a dropped
entry, used to witness the frame theorem. -/
def stEx : ConnectionsState :=
  ⟨5, [(1, some ⟨1, false⟩), (2, some ⟨2, false⟩), (3, none)]⟩

/-- C10 witness: the frame theorem applied to a concrete state — killing
connection 1 rewrites only its entry, keeps connection 2 and the dropped
entry 3, and killing an absent id 99 is a no-op. -/
theorem killConnection_frame_witness :
    ((2 : Nat), some (⟨2, false⟩ : Session)) ∈ (killConnection stEx 1).connections
    ∧ ((1 : Nat), some (⟨1, true⟩ : Session)) ∈ (killConnection stEx 1).connections
    ∧ ((3 : Nat), (none : Option Session)) ∈ (killConnection stEx 1).connections
    ∧ killConnection stEx 99 = stEx := by
  obtain ⟨-, -, h3, h4, -, -⟩ := killConnection_frame stEx 1
  obtain ⟨-, -, -, -, -, h6⟩ := killConnection_frame stEx 99
  refine ⟨h3 (2, some ⟨2, false⟩) (by decide) (by decide), ?_,
    h3 (3, none) (by decide) (by decide), h6 (by decide)⟩
  exact h4 ⟨1, false⟩ (by decide)

/-! ## C5: table-id generation (src/src/catalog/src/lib.rs lines 260-281) -/

/-- The "force even" step of `Catalog::generate_table_id`: `if id & 1 == 1
then id -= 1`. -/
def forceEven (h : Nat) : Nat := if h % 2 = 1 then h - 1 else h

/-- The probe loop of `Catalog::generate_table_id`: while the proposed id
is present in prefix_metadata, step to `id + 2` (u32 arithmetic wraps at
2^32). The source loop carries no bound; the fuel argument makes each
finite prefix of it a total function — `none` means the loop has not
finished within `fuel` iterations. -/
def generateTableIdAux (used : List Nat) : Nat → Nat → Option Nat
  | _, 0 => none
  | id, fuel + 1 =>
    if id ∈ used then generateTableIdAux used ((id + 2) % 2 ^ 32) fuel
    else some id

/-- `Catalog::generate_table_id`: a 32-bit hash of the table name (the
hasher itself is std's DefaultHasher, taken here as an input), forced
even, then probed upward by +2 against the set of table ids present in
prefix_metadata. Fuel `used.length + 1` is shown sufficient whenever
fewer than 2^31 ids are in use. -/
def generateTableId (used : List Nat) (hash32 : Nat) : Option Nat :=
  generateTableIdAux used (forceEven (hash32 % 2 ^ 32)) (used.length + 1)

theorem forceEven_even (n : Nat) : forceEven n % 2 = 0 := by
  unfold forceEven
  split_ifs with h <;> omega

theorem forceEven_le (n : Nat) : forceEven n ≤ n := by
  unfold forceEven
  split_ifs <;> omega

/-- Whatever the probe loop returns is unused, of the parity it started
with, and below 2^32 (when started below 2^32). -/
theorem generateTableIdAux_some (used : List Nat) :
    ∀ fuel id r, id < 2 ^ 32 → generateTableIdAux used id fuel = some r →
      r ∉ used ∧ r % 2 = id % 2 ∧ r < 2 ^ 32 := by
  intro fuel
  induction fuel with
  | zero =>
    intro id r _ h
    simp [generateTableIdAux] at h
  | succ fuel ih =>
    intro id r hid h
    rw [generateTableIdAux] at h
    by_cases hmem : id ∈ used
    · rw [if_pos hmem] at h
      have hstep : (id + 2) % 2 ^ 32 < 2 ^ 32 := Nat.mod_lt _ (by positivity)
      obtain ⟨h1, h2, h3⟩ := ih ((id + 2) % 2 ^ 32) r hstep h
      refine ⟨h1, ?_, h3⟩
      have hdvd : (2 : Nat) ∣ 2 ^ 32 := dvd_pow_self 2 (by omega)
      have : (id + 2) % 2 ^ 32 % 2 = (id + 2) % 2 := Nat.mod_mod_of_dvd _ hdvd
      omega
    · rw [if_neg hmem] at h
      obtain rfl : id = r := by simpa using h
      exact ⟨hmem, rfl, hid⟩

/-- If some probe within the fuel hits an unused id, the loop returns. -/
theorem generateTableIdAux_succeeds (used : List Nat) :
    ∀ fuel id, id < 2 ^ 32 →
      (∃ k, k < fuel ∧ ((id + 2 * k) % 2 ^ 32) ∉ used) →
      ∃ r, generateTableIdAux used id fuel = some r := by
  intro fuel
  induction fuel with
  | zero =>
    intro id _ ⟨k, hk, _⟩
    omega
  | succ fuel ih =>
    intro id hid hex
    rw [generateTableIdAux]
    by_cases hmem : id ∈ used
    · rw [if_pos hmem]
      obtain ⟨k, hk, hfree⟩ := hex
      have hk0 : k ≠ 0 := by
        intro h0
        subst h0
        simp only [Nat.mul_zero, Nat.add_zero] at hfree
        rw [Nat.mod_eq_of_lt hid] at hfree
        exact hfree hmem
      apply ih ((id + 2) % 2 ^ 32) (Nat.mod_lt _ (by positivity))
      refine ⟨k - 1, by omega, ?_⟩
      have hmm : ((id + 2) % 2 ^ 32 + 2 * (k - 1)) % 2 ^ 32
          = (id + 2 + 2 * (k - 1)) % 2 ^ 32 := Nat.mod_add_mod ..
      have harith : id + 2 + 2 * (k - 1) = id + 2 * k := by omega
      rw [hmm, harith]
      exact hfree
    · rw [if_neg hmem]
      exact ⟨id, rfl⟩

/-- Pigeonhole: among the first `used.length + 1` probes from any start
there is one that lands outside `used`, provided fewer than 2^31 ids are
in use (the probes are distinct residues mod 2^32). -/
theorem free_probe_exists (used : List Nat) (id : Nat)
    (hlen : used.length < 2 ^ 31) :
    ∃ k, k < used.length + 1 ∧ ((id + 2 * k) % 2 ^ 32) ∉ used := by
  by_contra hcon
  push_neg at hcon
  have hinj : ∀ k1 ∈ Finset.range (used.length + 1),
      ∀ k2 ∈ Finset.range (used.length + 1),
      (id + 2 * k1) % 2 ^ 32 = (id + 2 * k2) % 2 ^ 32 → k1 = k2 := by
    intro k1 h1 k2 h2 heq
    simp only [Finset.mem_range] at h1 h2
    rcases Nat.le_total k1 k2 with hle | hle
    · have hmod : (id + 2 * k1) ≡ (id + 2 * k2) [MOD 2 ^ 32] := heq
      have hdvd : (2 : Nat) ^ 32 ∣ (id + 2 * k2) - (id + 2 * k1) :=
        (Nat.modEq_iff_dvd' (by omega)).mp hmod
      have hsub : (id + 2 * k2) - (id + 2 * k1) = 2 * (k2 - k1) := by omega
      rw [hsub] at hdvd
      have h2pow : (2 : Nat) ^ 32 = 2 * 2 ^ 31 := by norm_num
      rw [h2pow] at hdvd
      have hdvd31 : (2 : Nat) ^ 31 ∣ (k2 - k1) :=
        (mul_dvd_mul_iff_left (by omega : (2 : Nat) ≠ 0)).mp hdvd
      have hsmall : k2 - k1 < 2 ^ 31 := by omega
      have h0 := Nat.eq_zero_of_dvd_of_lt hdvd31 hsmall
      omega
    · have hmod : (id + 2 * k2) ≡ (id + 2 * k1) [MOD 2 ^ 32] := heq.symm
      have hdvd : (2 : Nat) ^ 32 ∣ (id + 2 * k1) - (id + 2 * k2) :=
        (Nat.modEq_iff_dvd' (by omega)).mp hmod
      have hsub : (id + 2 * k1) - (id + 2 * k2) = 2 * (k1 - k2) := by omega
      rw [hsub] at hdvd
      have h2pow : (2 : Nat) ^ 32 = 2 * 2 ^ 31 := by norm_num
      rw [h2pow] at hdvd
      have hdvd31 : (2 : Nat) ^ 31 ∣ (k1 - k2) :=
        (mul_dvd_mul_iff_left (by omega : (2 : Nat) ≠ 0)).mp hdvd
      have hsmall : k1 - k2 < 2 ^ 31 := by omega
      have h0 := Nat.eq_zero_of_dvd_of_lt hdvd31 hsmall
      omega
  have hcard : ((Finset.range (used.length + 1)).image
      (fun k => (id + 2 * k) % 2 ^ 32)).card = used.length + 1 := by
    rw [Finset.card_image_of_injOn hinj, Finset.card_range]
  have hsub : (Finset.range (used.length + 1)).image
      (fun k => (id + 2 * k) % 2 ^ 32) ⊆ used.toFinset := by
    intro x hx
    rw [Finset.mem_image] at hx
    obtain ⟨k, hk, rfl⟩ := hx
    rw [Finset.mem_range] at hk
    exact List.mem_toFinset.mpr (hcon k hk)
  have hle := Finset.card_le_card hsub
  have htf := used.toFinset_card_le
  omega

/-- C5 (amended): table-id generation starts from the 32-bit hash of the
name forced even and probes upward by +2 (mod 2^32) until an unused id
is found; whenever fewer than 2^31 ids are in use it succeeds and the
returned id is even and unused. The probe itself is unbounded: no
TableAlreadyExists is produced on exhaustion (see the counterexample). -/
theorem generateTableId_spec (used : List Nat) (hash32 : Nat)
    (hlen : used.length < 2 ^ 31) :
    ∃ r, generateTableId used hash32 = some r ∧ r % 2 = 0 ∧ r ∉ used := by
  have hstart : forceEven (hash32 % 2 ^ 32) < 2 ^ 32 := by
    have h1 : hash32 % 2 ^ 32 < 2 ^ 32 := Nat.mod_lt _ (by positivity)
    have h2 := forceEven_le (hash32 % 2 ^ 32)
    omega
  obtain ⟨r, hr⟩ := generateTableIdAux_succeeds used (used.length + 1)
    (forceEven (hash32 % 2 ^ 32)) hstart
    (free_probe_exists used _ hlen)
  obtain ⟨hnotin, hpar, _⟩ :=
    generateTableIdAux_some used (used.length + 1) _ r hstart hr
  refine ⟨r, hr, ?_, hnotin⟩
  rw [hpar, forceEven_even]

/-- C5 witness: on the empty catalog with hash 0 the generator returns
id 0, which is even and unused. -/
theorem generateTableId_spec_witness :
    ([] : List Nat).length < 2 ^ 31 ∧
    ∃ r, generateTableId [] 0 = some r ∧ r % 2 = 0 ∧ r ∉ ([] : List Nat) :=
  ⟨by norm_num, generateTableId_spec [] 0 (by norm_num)⟩

/-- The catalog state in which every even 32-bit id is taken. -/
def allEvenIds : List Nat := (List.range (2 ^ 31)).map (fun k => 2 * k)

/-- The probe loop of generate_table_id terminates on this state: some
number of iterations returns an id. -/
def probeTerminatesOn (used : List Nat) (hash32 : Nat) : Prop :=
  ∃ fuel r, generateTableIdAux used (forceEven (hash32 % 2 ^ 32)) fuel = some r

/-- C5 counterexample: the claim says generate_table_id terminates for
every catalog state, failing with TableAlreadyExists when the bounded
probe is exhausted. The source loop has no bound and no error path: on
the state where every even 32-bit id is in use, no number of iterations
ever returns — the loop probes forever. -/
theorem generateTableId_cex : ¬ probeTerminatesOn allEvenIds 0 := by
  rintro ⟨fuel, r, hr⟩
  have hstart : forceEven (0 % 2 ^ 32) = 0 := by
    norm_num [forceEven]
  rw [hstart] at hr
  obtain ⟨hnotin, hpar, hlt⟩ :=
    generateTableIdAux_some allEvenIds fuel 0 r (by positivity) hr
  apply hnotin
  unfold allEvenIds
  rw [List.mem_map]
  refine ⟨r / 2, List.mem_range.mpr (by omega), by omega⟩

/-! ## C6: decimal return-type resolvers of `+` and `*`
(src/src/functions/src/scalar/maths/add.rs lines 75-92 and
multiply.rs lines 65-79) -/

/-- `DECIMAL_MAX_PRECISION` of the data crate (datatype.rs is not under
src; spec §3 fixes precision ≤ 28 and the resolver formulas use 28). -/
def DECIMAL_MAX_PRECISION : Nat := 28

/-- `DECIMAL_MAX_SCALE` of the data crate (spec §3: scale ≤ 28). -/
def DECIMAL_MAX_SCALE : Nat := 28

/-- Wrapping u8 subtraction, as `p1 - s1` computes in release builds. -/
def wrapSub8 (a b : Nat) : Nat := (a % 256 + 256 - b % 256) % 256

/-- Wrapping u8 addition. -/
def wrapAdd8 (a b : Nat) : Nat := (a + b) % 256

/-- The custom return-type resolver of the decimal `+` overload
(add.rs lines 78-91): for two decimal argument types the scale is
`max(s1, s2)` and the precision `min(max(p1 - s1, p2 - s2) + s + 1, 28)`;
a decimal paired with a non-decimal (null constant) keeps its own type;
anything else is `unreachable!()`, modelled as `none`. -/
def decimalAddResolver (a1 a2 : DataType) : Option DataType :=
  match a1, a2 with
  | .Decimal p1 s1, .Decimal p2 s2 =>
    let s := max s1 s2
    let p := min (wrapAdd8 (wrapAdd8 (max (wrapSub8 p1 s1) (wrapSub8 p2 s2)) s) 1)
      DECIMAL_MAX_PRECISION
    some (.Decimal p s)
  | .Decimal p s, _ => some (.Decimal p s)
  | _, .Decimal p s => some (.Decimal p s)
  | _, _ => none

/-- The custom return-type resolver of the decimal `*` overload
(multiply.rs lines 68-78): precision `min(p1 + p2, 28)` and scale
`min(s1 + s2, 28)`; the non-decimal case is a `panic!()`, modelled as
`none`. -/
def decimalMultiplyResolver (a1 a2 : DataType) : Option DataType :=
  match a1, a2 with
  | .Decimal p1 s1, .Decimal p2 s2 =>
    some (.Decimal (min (wrapAdd8 p1 p2) DECIMAL_MAX_PRECISION)
      (min (wrapAdd8 s1 s2) DECIMAL_MAX_SCALE))
  | _, _ => none

/-- C6: for valid decimal argument types (scale at most precision, both
precisions at most 28), the `+` resolver returns
Decimal(min(max(p1−s1, p2−s2) + max(s1,s2) + 1, 28), max(s1,s2)) and the
`*` resolver returns Decimal(min(p1+p2, 28), min(s1+s2, 28)). -/
theorem decimal_resolvers (p1 s1 p2 s2 : Nat)
    (hs1 : s1 ≤ p1) (hp1 : p1 ≤ 28) (hs2 : s2 ≤ p2) (hp2 : p2 ≤ 28) :
    decimalAddResolver (.Decimal p1 s1) (.Decimal p2 s2)
      = some (.Decimal (min (max (p1 - s1) (p2 - s2) + max s1 s2 + 1) 28)
          (max s1 s2))
    ∧ decimalMultiplyResolver (.Decimal p1 s1) (.Decimal p2 s2)
      = some (.Decimal (min (p1 + p2) 28) (min (s1 + s2) 28)) := by
  constructor
  · have e1 : wrapSub8 p1 s1 = p1 - s1 := by
      unfold wrapSub8
      have hm1 : p1 % 256 = p1 := Nat.mod_eq_of_lt (by omega)
      have hm2 : s1 % 256 = s1 := Nat.mod_eq_of_lt (by omega)
      rw [hm1, hm2]
      omega
    have e2 : wrapSub8 p2 s2 = p2 - s2 := by
      unfold wrapSub8
      have hm1 : p2 % 256 = p2 := Nat.mod_eq_of_lt (by omega)
      have hm2 : s2 % 256 = s2 := Nat.mod_eq_of_lt (by omega)
      rw [hm1, hm2]
      omega
    simp only [decimalAddResolver, e1, e2, wrapAdd8, DECIMAL_MAX_PRECISION]
    have hmax : max (p1 - s1) (p2 - s2) ≤ 28 := by omega
    have hmaxs : max s1 s2 ≤ 28 := by omega
    have hinner : (max (p1 - s1) (p2 - s2) + max s1 s2) % 256
        = max (p1 - s1) (p2 - s2) + max s1 s2 := Nat.mod_eq_of_lt (by omega)
    rw [hinner]
    have houter : (max (p1 - s1) (p2 - s2) + max s1 s2 + 1) % 256
        = max (p1 - s1) (p2 - s2) + max s1 s2 + 1 := Nat.mod_eq_of_lt (by omega)
    rw [houter]
  · simp only [decimalMultiplyResolver, wrapAdd8, DECIMAL_MAX_PRECISION,
      DECIMAL_MAX_SCALE]
    have h1 : (p1 + p2) % 256 = p1 + p2 := Nat.mod_eq_of_lt (by omega)
    have h2 : (s1 + s2) % 256 = s1 + s2 := Nat.mod_eq_of_lt (by omega)
    rw [h1, h2]

/-- C6 witness: the resolvers applied to Decimal(10,2) and Decimal(5,1):
`+` gives Decimal(12, 2), `*` gives Decimal(15, 3). -/
theorem decimal_resolvers_witness :
    ((2 : Nat) ≤ 10 ∧ (10 : Nat) ≤ 28 ∧ (1 : Nat) ≤ 5 ∧ (5 : Nat) ≤ 28) ∧
    (decimalAddResolver (.Decimal 10 2) (.Decimal 5 1)
        = some (.Decimal (min (max (10 - 2) (5 - 1) + max 2 1 + 1) 28) (max 2 1))
      ∧ decimalMultiplyResolver (.Decimal 10 2) (.Decimal 5 1)
        = some (.Decimal (min (10 + 5) 28) (min (2 + 1) 28))) :=
  ⟨by decide,
    decimal_resolvers 10 2 5 1 (by decide) (by decide) (by decide) (by decide)⟩

/-! ## C7: predicate routing at inner joins
(src/src/planner/src/p2_optimization/predicate_pushdown.rs lines 73-165) -/

/-- `Expression` from src/src/ast/src/expr.rs. Function pointers and the
runtime `expr_buffer` of compiled nodes are omitted — the source's own
`PartialEq` for compiled calls compares only args and signature — and a
signature is represented by its function name. -/
inductive Expression
  | Constant (d : Datum) (t : DataType)
  | FunctionCall (name : String) (args : List Expression)
  | Cast (expr : Expression) (datatype : DataType)
  | CompiledFunctionCall (name : String) (args : List Expression)
  | CompiledAggregate (name : String) (args : List Expression)
  | ColumnReference (qualifier : Option String) (aliasName : String) (star : Bool)
  | CompiledColumnReference (offset : Nat) (datatype : DataType)
deriving Repr

mutual

/-- Modelled from the spec: the column offsets referenced by an
expression, as collected by `min_max_column_deps_for_expression` of
src/src/planner/src/utils/expr.rs (not under src) — the offsets of all
`CompiledColumnReference` nodes in the tree. -/
def columnDeps : Expression → List Nat
  | .Constant _ _ => []
  | .ColumnReference _ _ _ => []
  | .CompiledColumnReference off _ => [off]
  | .Cast e _ => columnDeps e
  | .FunctionCall _ args => columnDepsList args
  | .CompiledFunctionCall _ args => columnDepsList args
  | .CompiledAggregate _ args => columnDepsList args

/-- Column offsets referenced across a list of expressions. -/
def columnDepsList : List Expression → List Nat
  | [] => []
  | e :: rest => columnDeps e ++ columnDepsList rest

end

/-- Modelled from the spec: `min_max_column_deps_for_expression`
(utils/expr.rs, not under src) — `None` when the expression references no
columns, otherwise the minimum and maximum referenced offsets. -/
def minMaxColumnDeps (e : Expression) : Option (Nat × Nat) :=
  match columnDeps e with
  | [] => none
  | d :: ds => some (ds.foldl min d, ds.foldl max d)

mutual

/-- Modelled from the spec: `move_column_references` (utils/expr.rs, not
under src) — shifts every `CompiledColumnReference` offset by the given
delta, as used to re-base right-side predicates by −left width. -/
def moveColumnReferences (delta : Int) : Expression → Expression
  | .Constant d t => .Constant d t
  | .ColumnReference q a st => .ColumnReference q a st
  | .CompiledColumnReference off t =>
    .CompiledColumnReference ((off : Int) + delta).toNat t
  | .Cast e t => .Cast (moveColumnReferences delta e) t
  | .FunctionCall n args => .FunctionCall n (moveColumnReferencesList delta args)
  | .CompiledFunctionCall n args =>
    .CompiledFunctionCall n (moveColumnReferencesList delta args)
  | .CompiledAggregate n args =>
    .CompiledAggregate n (moveColumnReferencesList delta args)

/-- Shift applied across a list of expressions. -/
def moveColumnReferencesList (delta : Int) : List Expression → List Expression
  | [] => []
  | e :: rest => moveColumnReferences delta e :: moveColumnReferencesList delta rest

end

/-- The routing loop of the Inner-Join arm of
`pushdown_predicates_from_above` (predicate_pushdown.rs lines 100-116):
each conjunct goes to the left accumulator, the right accumulator, or
stays in the join condition, by its column deps. Returns
(left, right-before-shift, keep). -/
def routeJoinPredicates (conjuncts : List Expression) (leftLen : Nat) :
    List Expression × List Expression × List Expression :=
  match conjuncts with
  | [] => ([], [], [])
  | p :: rest =>
    let acc := routeJoinPredicates rest leftLen
    match minMaxColumnDeps p with
    | none => (p :: acc.1, p :: acc.2.1, acc.2.2)
    | some (mn, mx) =>
      if mx < leftLen then (p :: acc.1, acc.2.1, acc.2.2)
      else if leftLen ≤ mn then (acc.1, p :: acc.2.1, acc.2.2)
      else (acc.1, acc.2.1, p :: acc.2.2)

/-- The Inner-Join arm of `pushdown_predicates_from_above` (lines
99-119 and 148-151): predicates pushed from above are merged with the
decomposed join condition, routed, and the right-side conjuncts have
their column references shifted down by the left input's width. -/
def innerJoinPushdown (preds joinOn : List Expression) (leftLen : Nat) :
    List Expression × List Expression × List Expression :=
  let acc := routeJoinPredicates (preds ++ joinOn) leftLen
  (acc.1, moveColumnReferencesList (-(leftLen : Int)) acc.2.1, acc.2.2)

/-- Routing predicate: the conjunct goes to the left input. -/
def goesLeft (leftLen : Nat) (p : Expression) : Bool :=
  match minMaxColumnDeps p with
  | none => true
  | some (_, mx) => decide (mx < leftLen)

/-- Routing predicate: the conjunct goes to the right input. -/
def goesRight (leftLen : Nat) (p : Expression) : Bool :=
  match minMaxColumnDeps p with
  | none => true
  | some (mn, mx) => !(decide (mx < leftLen)) && decide (leftLen ≤ mn)

/-- Routing predicate: the conjunct stays in the join condition. -/
def staysInJoin (leftLen : Nat) (p : Expression) : Bool :=
  match minMaxColumnDeps p with
  | none => false
  | some (mn, mx) => !(decide (mx < leftLen)) && !(decide (leftLen ≤ mn))

theorem routeJoinPredicates_eq (cs : List Expression) (leftLen : Nat) :
    routeJoinPredicates cs leftLen
      = (cs.filter (goesLeft leftLen), cs.filter (goesRight leftLen),
         cs.filter (staysInJoin leftLen)) := by
  induction cs with
  | nil => rfl
  | cons p rest ih =>
    rw [routeJoinPredicates, ih]
    cases hdeps : minMaxColumnDeps p with
    | none =>
      simp [List.filter_cons, goesLeft, goesRight, staysInJoin, hdeps]
    | some mm =>
      obtain ⟨mn, mx⟩ := mm
      by_cases hmx : mx < leftLen
      · simp [List.filter_cons, goesLeft, goesRight, staysInJoin, hdeps, hmx]
      · by_cases hmn : leftLen ≤ mn
        · simp [List.filter_cons, goesLeft, goesRight, staysInJoin, hdeps,
            hmx, hmn]
        · simp [List.filter_cons, goesLeft, goesRight, staysInJoin, hdeps,
            hmx, hmn]

/-- C7: during predicate pushdown at an inner join, the conjuncts —
predicates pushed from above merged with the decomposed join condition —
are routed exactly as the claim says: max referenced column below the
left width goes left; min referenced column at least the left width goes
right, with column references shifted down by the left width; conjuncts
referencing no columns go to both sides; everything else stays in the
join condition. Order is preserved everywhere. -/
theorem innerJoinPushdown_routing (preds joinOn : List Expression)
    (leftLen : Nat) :
    innerJoinPushdown preds joinOn leftLen
      = ((preds ++ joinOn).filter (goesLeft leftLen),
         ((preds ++ joinOn).filter (goesRight leftLen)).map
           (moveColumnReferences (-(leftLen : Int))),
         (preds ++ joinOn).filter (staysInJoin leftLen)) := by
  have hmap : ∀ l : List Expression, moveColumnReferencesList (-(leftLen : Int)) l
      = l.map (moveColumnReferences (-(leftLen : Int))) := by
    intro l
    induction l with
    | nil => rfl
    | cons e rest ih => rw [moveColumnReferencesList, List.map_cons, ih]
  unfold innerJoinPushdown
  simp only [routeJoinPredicates_eq, hmap]

end Incresql
